import Mathlib

/-!
Verification development for the entity-resolution engine of `enrich_api.py`
(company-record enrichment against the French business registry).

The Python source is shallowly embedded: strings are `String`/`List Char`,
Python dictionaries coming from the registry are fixed-field structures with
missing fields modelled as `""`, floats are modelled as exact rationals
(`Rat`, noted where it matters), and the two blocking HTTP calls are modelled
as oracle inputs of an inductive `Transport` type (success with a result
list, non-success status code, or raised transport exception).

Character-class conventions (documented approximations of Python's `re`):
`\w` is ASCII alphanumeric, underscore, or any non-ASCII character;
`\s` is the six ASCII whitespace characters.  `str.upper`/`str.lower`
are modelled on ASCII letters plus the French accented letters that occur
in the program's data tables.
-/

namespace EnrichApi

/-- Python `\w` (word character): ASCII alphanumerics and underscore; all
non-ASCII characters are treated as word characters (approximation of
Unicode word characters, adequate for the accented letters in the data). -/
def isWordCh (c : Char) : Bool :=
  c.isAlphanum || c == '_' || decide (128 ≤ c.toNat)

/-- Python `\s` (whitespace character), ASCII part. -/
def isSpaceCh (c : Char) : Bool :=
  c == ' ' || c == '\t' || c == '\n' || c == '\r' || c == '\x0b' || c == '\x0c'

/-- Case table for Python `str.upper`/`str.lower`: lower-case letter paired
with its upper-case form; ASCII plus the French accented letters appearing
in the city gazetteer and keyword tables of the source. -/
def casePairs : List (Char × Char) :=
  [('a', 'A'), ('b', 'B'), ('c', 'C'), ('d', 'D'), ('e', 'E'), ('f', 'F'),
   ('g', 'G'), ('h', 'H'), ('i', 'I'), ('j', 'J'), ('k', 'K'), ('l', 'L'),
   ('m', 'M'), ('n', 'N'), ('o', 'O'), ('p', 'P'), ('q', 'Q'), ('r', 'R'),
   ('s', 'S'), ('t', 'T'), ('u', 'U'), ('v', 'V'), ('w', 'W'), ('x', 'X'),
   ('y', 'Y'), ('z', 'Z'),
   ('é', 'É'), ('è', 'È'), ('ê', 'Ê'), ('ë', 'Ë'),
   ('à', 'À'), ('â', 'Â'), ('ä', 'Ä'),
   ('î', 'Î'), ('ï', 'Ï'),
   ('ô', 'Ô'), ('ö', 'Ö'),
   ('ù', 'Ù'), ('û', 'Û'), ('ü', 'Ü'),
   ('ç', 'Ç'), ('ñ', 'Ñ')]

/-- Python `str.upper`, one character. -/
def pyUpperChar (c : Char) : Char :=
  match casePairs.find? (fun pr => pr.1 == c) with
  | some pr => pr.2
  | none => c

/-- Python `str.lower`, one character. -/
def pyLowerChar (c : Char) : Char :=
  match casePairs.find? (fun pr => pr.2 == c) with
  | some pr => pr.1
  | none => c

/-- Python `str.upper` on a character list. -/
def upperL (s : List Char) : List Char := s.map pyUpperChar

/-- Python `str.lower` on a character list. -/
def lowerL (s : List Char) : List Char := s.map pyLowerChar

/-- Python `str.upper` on a `String`. -/
def pyUpper (s : String) : String := ⟨upperL s.data⟩

/-- Python `str.lower` on a `String`. -/
def pyLower (s : String) : String := ⟨lowerL s.data⟩

/-- Python `str.strip` on a character list (strip the six ASCII whitespace
characters from both ends). -/
def trimL (s : List Char) : List Char :=
  ((s.dropWhile isSpaceCh).reverse.dropWhile isSpaceCh).reverse

/-- Python `str.strip` on a `String`. -/
def pyStrip (s : String) : String := ⟨trimL s.data⟩

/-- Does `needle` occur at the head of `hay`? (list prefix test). -/
def startsWithL : List Char → List Char → Bool
  | [], _ => true
  | _ :: _, [] => false
  | a :: as, b :: bs => a == b && startsWithL as bs

/-- Python substring test `needle in hay`. -/
def isSubL (needle : List Char) : List Char → Bool
  | [] => startsWithL needle []
  | c :: cs => startsWithL needle (c :: cs) || isSubL needle cs

/-- Python substring test on `String`s. -/
def pyContains (hay needle : String) : Bool := isSubL needle.data hay.data

/-- Python string comparison `s < t` (lexicographic by code point) on
character lists. -/
def pyStrLtL : List Char → List Char → Bool
  | [], [] => false
  | [], _ :: _ => true
  | _ :: _, [] => false
  | a :: as, b :: bs =>
    if a.toNat < b.toNat then true
    else if b.toNat < a.toNat then false
    else pyStrLtL as bs

/-- Python string comparison `s < t` on `String`s. -/
def pyStrLt (s t : String) : Bool := pyStrLtL s.data t.data

/-- Split a character list into maximal runs of characters with equal
`p`-value (the runs alternate between `p`-true and `p`-false, are nonempty,
and concatenate back to the input). -/
def groupRunsBy (p : Char → Bool) : List Char → List (List Char)
  | [] => []
  | c :: cs =>
    match groupRunsBy p cs with
    | [] => [[c]]
    | [] :: gs => [c] :: gs
    | (d :: g) :: gs =>
      if p c = p d then (c :: d :: g) :: gs else [c] :: (d :: g) :: gs

/-- Does the list start with a character satisfying `p`? -/
def headIs (p : Char → Bool) : List Char → Bool
  | [] => false
  | c :: _ => p c

/-- Python `str.split()` (split on whitespace runs, dropping empties),
on a character list. -/
def splitTokensL (s : List Char) : List (List Char) :=
  (groupRunsBy isSpaceCh s).filter (headIs fun c => !isSpaceCh c)

/-- Python `str.split()` on a `String`. -/
def pySplit (s : String) : List String :=
  (splitTokensL s.data).map fun l => ⟨l⟩

/-- Python `' '.join(...)` on character lists. -/
def joinTok : List (List Char) → List Char
  | [] => []
  | [g] => g
  | g :: h :: gs => g ++ ' ' :: joinTok (h :: gs)

/-- Python `' '.join(...)` on `String`s. -/
def joinSp (ws : List String) : String := ⟨joinTok (ws.map String.data)⟩

/-! ### AddressNormalizer: `clean_address` -/

/-- `re.sub(r'\bW\b', R, s)` for a pattern `W` made only of word characters:
since `\b` matches exactly at a transition between a word and a non-word
character (or a string end), the boundary-delimited occurrences of `W` are
exactly the maximal word-character runs equal to `W`; each such run is
replaced by `R`. -/
def subWordAll (w r : List Char) (s : List Char) : List Char :=
  ((groupRunsBy isWordCh s).map fun g => if g = w then r else g).flatten

/-- The six ordered whole-word abbreviation substitutions of
`clean_address` (lines 32-37 of the source). -/
def abbrevPairs : List (List Char × List Char) :=
  [("BOULEVARD".data, "BD".data), ("AVENUE".data, "AV".data),
   ("ROUTE".data, "RTE".data), ("RUE".data, "R".data),
   ("SAINT".data, "ST".data), ("SAINTE".data, "STE".data)]

/-- Apply the six abbreviation substitutions in source order. -/
def applyAbbrevs (s : List Char) : List Char :=
  abbrevPairs.foldl (fun a pr => subWordAll pr.1 pr.2 a) s

/-- `re.sub(r'[^\w\s]', ' ', s)`: replace every character that is neither a
word character nor whitespace by a space. -/
def stripSpecialsL (s : List Char) : List Char :=
  s.map fun c => if isWordCh c || isSpaceCh c then c else ' '

/-- `re.sub(r'\s+', ' ', s).strip()`: collapse whitespace runs to single
spaces and trim, i.e. join the whitespace-separated tokens with single
spaces. -/
def collapseL (s : List Char) : List Char := joinTok (splitTokensL s)

/-- `clean_address` on character lists: uppercase, abbreviate the six
street words, replace special characters by spaces, collapse whitespace. -/
def cleanList (s : List Char) : List Char :=
  collapseL (stripSpecialsL (applyAbbrevs (upperL s)))

/-- `clean_address(address)`: normalize an address for comparison.  The
Python guard `if not address or pd.isna(address): return ""` is subsumed:
an empty input yields the empty output. -/
def clean_address (address : String) : String := ⟨cleanList address.data⟩

/-! ### AddressMatcher: `addresses_match` -/

/-- ASCII decimal digit (Python `\d`): code points 48-57. -/
def isDigitCh (c : Char) : Bool := decide (48 ≤ c.toNat ∧ c.toNat ≤ 57)

/-- Does `\d{5}\b` match at the head of `l` (five digits followed by a
non-word character or the string end)? -/
def fiveDigitsHere (l : List Char) : Bool :=
  match l with
  | a :: b :: c :: d :: e :: rest =>
    isDigitCh a && isDigitCh b && isDigitCh c && isDigitCh d && isDigitCh e &&
      (match rest with
       | [] => true
       | f :: _ => !isWordCh f)
  | _ => false

/-- Scanner for `re.search(r'\b\d{5}\b', s)`: `prev` records whether the
previous character is a word character (so `\b` holds at the current
position iff `prev` is false, the first matched character being a digit). -/
def findPostalAux : Bool → List Char → Option (List Char)
  | _, [] => none
  | prev, c :: cs =>
    if !prev && fiveDigitsHere (c :: cs) then some ((c :: cs).take 5)
    else findPostalAux (isWordCh c) cs

/-- `re.search(r'\b\d{5}\b', s)` returning the matched postal-code token of
the first match, if any.  Applied to the raw (pre-normalization) address. -/
def findPostal (s : String) : Option String :=
  (findPostalAux false s.data).map fun l => ⟨l⟩

/-- The placeholder-only strings vetoed by `addresses_match` (line 52). -/
def placeholderStrings : List String := ["·", ".", "-", "/"]

/-- Number of distinct words of `s` (Python `len(set(s.split()))`). -/
def wordSetOf (s : String) : List String := (pySplit s).dedup

/-- `addresses_match(original_address, api_address)` (lines 45-81 of the
source).  The word-overlap threshold compares against
`max(2, len(original_words) * 0.3)`; the float literal `0.3` is modelled by
the exact rational `3/10`. -/
def addresses_match (original_address api_address : String) : Bool :=
  if original_address == "" || api_address == "" then false
  else if placeholderStrings.contains (pyStrip original_address) then false
  else
    let norm_original := clean_address original_address
    let norm_api := clean_address api_address
    if norm_original == "" || norm_api == "" then false
    else if pyContains norm_api norm_original || pyContains norm_original norm_api then true
    else
      let original_words := wordSetOf norm_original
      let api_words := wordSetOf norm_api
      let common_words := original_words.filter (fun w => api_words.contains w)
      match findPostal original_address, findPostal api_address with
      | some cp1, some cp2 =>
        if cp1 ≠ cp2 then false
        else decide (max 2 ((original_words.length : ℚ) * (3 / 10)) ≤ (common_words.length : ℚ))
      | _, _ =>
        decide (max 2 ((original_words.length : ℚ) * (3 / 10)) ≤ (common_words.length : ℚ))

/-! ### NameSimplifier (inline in `search_company`, lines 88-123) -/

/-- The gazetteer of French city names (lines 91-96). -/
def citiesList : List String :=
  ["PARIS", "LYON", "MARSEILLE", "TOULOUSE", "NICE", "NANTES", "MONTPELLIER",
   "STRASBOURG", "BORDEAUX", "LILLE", "RENNES", "REIMS", "TOULON", "GRENOBLE",
   "DIJON", "ANGERS", "NÎMES", "VILLEURBANNE", "SAINT-DENIS", "ASNIÈRES", "CAEN",
   "SAINT-ÉTIENNE", "ROUEN", "NANCY", "ORLÉANS", "LIMOGES", "MULHOUSE",
   "SAINT-PAUL", "ROUBAIX", "DUNKERQUE", "PERPIGNAN", "AMIENS", "BOULOGNE",
   "BESANÇON", "BREST", "CANNES", "METZ", "ANTIBES", "HONFLEUR", "HYMER", "FECAMP"]

/-- The separator tokens of line 99 (the en-dash separator appears twice in
the source list). -/
def separatorsList : List String := [" - ", " | ", " – ", " – ", " : ", " / "]

/-- The part of `s` before the first occurrence of `sep`
(Python `s.split(sep)[0]` for an occurring separator). -/
def takeBeforeSub (sep : List Char) : List Char → List Char
  | [] => []
  | c :: cs => if startsWithL sep (c :: cs) then [] else c :: takeBeforeSub sep cs

/-- Lines 99-103: truncate at the first separator (in list order) occurring
in the name, and strip; leave the name unchanged when no separator occurs. -/
def applySeparators (s : String) : String :=
  match separatorsList.find? (fun sep => isSubL sep.data s.data) with
  | some sep => pyStrip ⟨takeBeforeSub sep.data s.data⟩
  | none => s

/-- The last `n` elements of a list (Python `l[-n:]` for `0 < n ≤ len l`). -/
def lastN (n : Nat) (l : List String) : List String := l.drop (l.length - n)

/-- All but the last `n` elements of a list (Python `l[:-n]`). -/
def dropLastN (n : Nat) (l : List String) : List String := l.take (l.length - n)

/-- The trailing-city search loop of lines 118-123: the first
`i ∈ {1, ..., min 4 (len words) - 1}` such that the last `i` words form a
known city. -/
def cityStripIdx (words : List String) : Option Nat :=
  (List.range' 1 (min 4 words.length - 1)).find? fun i =>
    citiesList.contains (pyUpper (joinSp (lastN i words)))

/-- The name-simplification phase of `search_company` (lines 88-123):
truncate at a separator, then detect and remove a trailing city name.  When
a city is stripped the result is rebuilt from the upper-cased word list. -/
def simplify_name (company_name : String) : String :=
  let s1 := applySeparators company_name
  let words := pySplit (pyUpper s1)
  if 1 < words.length then
    if citiesList.contains (words.getLastD "") ||
       citiesList.contains (pyUpper (joinSp (lastN 2 words))) ||
       (decide (2 < words.length) && citiesList.contains (pyUpper (joinSp (lastN 3 words)))) then
      if decide (2 < words.length) && ((lastN 2 words).headD "" == "ST" || (lastN 2 words).headD "" == "SAINT") &&
         citiesList.contains (words.getLastD "") then
        if 3 < words.length then pyStrip (joinSp (dropLastN 2 words)) else s1
      else
        match cityStripIdx words with
        | some i => pyStrip (joinSp (dropLastN i words))
        | none => s1
    else s1
  else s1

/-! ### Registry records -/

/-- A raw officer (`dirigeant`) as delivered inside a registry record.  The
source tolerates alternately-named fields (`annee_de_naissance` /
`annee_naissance`, `prenoms` / `prenom`) and non-string values (replaced by
`""` after the `isinstance` checks); the structure models the value
obtained after that field access, with missing data as `""`. -/
structure OfficerRaw where
  nom : String
  prenoms : String
  qualite : String
  annee : String
  type_dirigeant : String
deriving DecidableEq, Repr

/-- The per-officer dictionary `dirigeant_info` built at lines 300-316. -/
structure DirInfo where
  nom : String
  prenoms : String
  premier_prenom : String
  qualite : String
  annee : String
  age : String
  est_personne_morale : Bool
  identifiant : String
deriving DecidableEq, Repr

/-- A candidate registry record as consumed by `search_company` (fields
accessed via `.get(...)`, missing data as `""`). -/
structure Candidate where
  siren : String
  nom_complet : String
  etat_administratif : String
  siege_adresse : String
  siege_tranche_effectif : String
  date_creation : String
  objet_social : String
  description : String
  activite_principale : String
  dirigeants : List OfficerRaw
deriving DecidableEq, Repr

/-! ### OfficerResolver (lines 277-364 and 397-424) -/

/-- Python `int(s)` on a string: optional surrounding whitespace, optional
sign, decimal digits (the rarely-used underscore digit grouping of Python 3
is not modelled). -/
def parseDigits (ds : List Char) : Option Nat :=
  if ds ≠ [] && ds.all isDigitCh then
    some (ds.foldl (fun a c => 10 * a + (c.toNat - 48)) 0)
  else none

/-- Python `int(s)` returning `none` where Python raises `ValueError`. -/
def parsePyInt (s : String) : Option Int :=
  match trimL s.data with
  | '-' :: ds => (parseDigits ds).map (fun n => -(n : Int))
  | '+' :: ds => (parseDigits ds).map (fun n => (n : Int))
  | ds => (parseDigits ds).map (fun n => (n : Int))

/-- Lines 282-324: extract one officer's fields.  `currentYear` is
`datetime.now().year` at resolution time. -/
def extractInfo (currentYear : Int) (d : OfficerRaw) : DirInfo :=
  let nom0 := pyStrip d.nom
  let prenoms := pyStrip d.prenoms
  let qualite := pyStrip d.qualite
  let premier_prenom :=
    if !(prenoms == "") && pyContains prenoms " " then (pySplit prenoms).headD ""
    else prenoms
  let est_pm := d.type_dirigeant == "personne_morale" ||
    (prenoms == "" && (pyContains nom0 "SA" || pyContains nom0 "SAS" ||
      pyContains nom0 "SARL" || pyContains nom0 "SCI" || pyContains nom0 "EURL"))
  let nom :=
    if pyContains nom0 "(" && pyContains nom0 ")" then pyStrip ⟨takeBeforeSub "(".data nom0.data⟩
    else nom0
  let age :=
    if !(d.annee == "") then
      match parsePyInt d.annee with
      | some n => toString (currentYear - n) ++ " ans"
      | none => ""
    else ""
  { nom := nom
    prenoms := prenoms
    premier_prenom := premier_prenom
    qualite := qualite
    annee := d.annee
    age := age
    est_personne_morale := est_pm
    identifiant := nom ++ "_" ++ premier_prenom }

/-- Lines 326-338: scan the accumulated list for an entry with the same
identity key; on the first hit, overwrite it with the new entry when the
new entry's first-names string is strictly longer, and do not append; with
no hit, append at the end. -/
def insertD (autres : List DirInfo) (info : DirInfo) : List DirInfo :=
  match autres with
  | [] => [info]
  | e :: es =>
    if e.identifiant == info.identifiant then
      (if e.prenoms.length < info.prenoms.length then info else e) :: es
    else e :: insertD es info

/-- The running accumulator of the officer loop (lines 269-275). -/
structure OffState where
  nom_dirigeant : String
  prenom_dirigeant : String
  qualite_dirigeant : String
  annee_naissance_max : String
  autres_dirigeants : List DirInfo
deriving DecidableEq, Repr

/-- Initial accumulator: empty primary, `annee_naissance_max = "0"`. -/
def initOffState : OffState := ⟨"", "", "", "0", []⟩

/-- One iteration of the officer loop (lines 281-351): deduplicate into the
accumulator, take the first named officer as provisional primary, and
promote this officer to primary when its birth-year string strictly exceeds
the running maximum (Python string comparison `annee > annee_naissance_max`,
which is lexicographic by code point). -/
def stepOfficer (y : Int) (s : OffState) (d : OfficerRaw) : OffState :=
  let info := extractInfo y d
  let autres := insertD s.autres_dirigeants info
  let s1 :=
    if s.nom_dirigeant == "" && s.prenom_dirigeant == "" && !(info.nom == "") then
      { s with
        autres_dirigeants := autres
        nom_dirigeant := info.nom
        prenom_dirigeant := info.premier_prenom
        qualite_dirigeant := info.qualite }
    else { s with autres_dirigeants := autres }
  if !(info.annee == "") && (s.annee_naissance_max == "" || pyStrLt s.annee_naissance_max info.annee) then
    { s1 with
      nom_dirigeant := info.nom
      prenom_dirigeant := info.premier_prenom
      qualite_dirigeant := info.qualite
      annee_naissance_max := info.annee }
  else s1

/-- The whole officer loop over a record's `dirigeants` list. -/
def runOfficers (y : Int) (ds : List OfficerRaw) : OffState :=
  ds.foldl (stepOfficer y) initOffState

/-- One alternate officer as returned in the result dictionary
(lines 418-424). -/
structure AltOfficer where
  nom : String
  prenoms : String
  qualite : String
  age : String
  est_personne_morale : Bool
deriving DecidableEq, Repr

/-- Lines 409-424: alternates are the accumulated officers whose
(last name, first first-name) pair differs from the primary's, truncated to
at most 5, each projected to the output fields (with `prenoms` holding only
the first first-name). -/
def alternatesOf (s : OffState) : List AltOfficer :=
  ((s.autres_dirigeants.filter fun d =>
      !(d.nom == s.nom_dirigeant && d.premier_prenom == s.prenom_dirigeant)).take 5).map
    fun d => ⟨d.nom, d.premier_prenom, d.qualite, d.age, d.est_personne_morale⟩

/-- Lines 397-404: age string of the primary officer from the maximal
birth-year string, empty when no valid year was recorded. -/
def primaryAge (y : Int) (s : OffState) : String :=
  if !(s.annee_naissance_max == "") && !(s.annee_naissance_max == "0") then
    match parsePyInt s.annee_naissance_max with
    | some n => toString (y - n) ++ " ans"
    | none => ""
  else ""

/-! ### Result assembly (lines 263-447) -/

/-- The employee-range code table of lines 376-393. -/
def trancheEffectifMap : List (String × String) :=
  [("NN", "Unité non-employeuse ou présumée non-employeuse"),
   ("00", "0 salarié (a employé des salariés)"),
   ("01", "1 ou 2 salariés"),
   ("02", "3 à 5 salariés"),
   ("03", "6 à 9 salariés"),
   ("11", "10 à 19 salariés"),
   ("12", "20 à 49 salariés"),
   ("21", "50 à 99 salariés"),
   ("22", "100 à 199 salariés"),
   ("31", "200 à 249 salariés"),
   ("32", "250 à 499 salariés"),
   ("41", "500 à 999 salariés"),
   ("42", "1000 à 1999 salariés"),
   ("51", "2000 à 4999 salariés"),
   ("52", "5000 à 9999 salariés"),
   ("53", "10000 salariés et plus")]

/-- `tranche_effectif_map.get(code, "null")`. -/
def trancheDescOf (code : String) : String :=
  match trancheEffectifMap.find? (fun pr => pr.1 == code) with
  | some pr => pr.2
  | none => "null"

/-- The dictionary returned by `search_company` on success (lines 432-447). -/
structure ResultRecord where
  siren : String
  nom_raison_sociale : String
  adresse : String
  etat_administratif : String
  tranche_effectif_code : String
  tranche_effectif : String
  date_creation : String
  annee_creation : String
  nom_dirigeant : String
  prenom_dirigeant : String
  qualite_dirigeant : String
  age_dirigeant : String
  match_adresse : String
  autres_dirigeants : List AltOfficer
deriving DecidableEq, Repr

/-- Lines 263-447: assemble the result record from the chosen candidate:
resolve officers, re-check the address match for the flag, map the
employee-range code, and expose only the first four characters of the raw
creation date (the `dirigeants_str` log string of lines 353-366 is built
but never returned, and is not modelled). -/
def assembleResult (address : String) (y : Int) (best : Candidate) : ResultRecord :=
  let st := runOfficers y best.dirigeants
  let api_address := best.siege_adresse
  let address_match := addresses_match address api_address
  let code := best.siege_tranche_effectif
  let annee_creation :=
    if best.date_creation ≠ "" ∧ 4 ≤ best.date_creation.length then
      (⟨best.date_creation.data.take 4⟩ : String)
    else ""
  { siren := best.siren
    nom_raison_sociale := best.nom_complet
    adresse := api_address
    etat_administratif := best.etat_administratif
    tranche_effectif_code := code
    tranche_effectif := trancheDescOf code
    date_creation := annee_creation
    annee_creation := annee_creation
    nom_dirigeant := st.nom_dirigeant
    prenom_dirigeant := st.prenom_dirigeant
    qualite_dirigeant := st.qualite_dirigeant
    age_dirigeant := primaryAge y st
    match_adresse := if address_match then "Oui" else "Non"
    autres_dirigeants := alternatesOf st }

/-! ### CandidateSelector -/

/-- Lines 248-257: the selection loop over the candidate list, taking the
first candidate whose headquarters address matches and breaking. -/
def pickLoop (address : String) : List Candidate → Option Candidate
  | [] => none
  | r :: rs =>
    if addresses_match address r.siege_adresse then some r else pickLoop address rs

/-- Lines 244-261: first address-matching candidate, else the first
candidate of the (possibly empty) list. -/
def pickByAddress (address : String) (results : List Candidate) : Option Candidate :=
  match pickLoop address results with
  | some r => some r
  | none => results.head?

/-- Lines 171-179: the name-similarity score: positional character matches
between the two upper-cased names plus five times one minus the relative
length difference.  Python computes the second addend in floating point;
it is modelled as an exact rational.  When both strings are empty Python
raises `ZeroDivisionError` (caught by the top-level handler of
`search_company`); the model's rational division then yields `0`, giving
score `5` - the difference only matters for an empty input company name. -/
def string_similarity (s1 s2 : String) : ℚ :=
  let u1 := upperL s1.data
  let u2 := upperL s2.data
  let common := ((u1.zip u2).filter fun pr => pr.1 == pr.2).length
  let length_diff : ℚ := 1 - |(u1.length : ℚ) - (u2.length : ℚ)| / max (u1.length : ℚ) (u2.length : ℚ)
  common + length_diff * 5

/-- The electrical-trade keyword list of lines 182-183. -/
def electricalKeywords : List String :=
  ["ELEC", "ELECTR", "ELECTRIC", "ELECTRONIQUE", "CÂBLAGE", "CABLAGE",
   "CABL", "INSTAL", "COURANT", "TELECOM", "ENERGI", "ENERGIE"]

/-- Lines 192-203: does the candidate's combined name / description /
activity text contain an electrical-trade keyword?  (`objet_social`
falls back to `description` when empty, via Python `or`.) -/
def hasElectricalKeyword (r : Candidate) : Bool :=
  let description := if r.objet_social == "" then r.description else r.objet_social
  let combined_text := pyUpper (r.nom_complet ++ " " ++ description ++ " " ++ r.activite_principale)
  electricalKeywords.any fun k => pyContains combined_text k

/-- State of the fallback-scoring loop (lines 186-189). -/
structure FallbackState where
  best_match : Option Candidate
  best_score : ℚ
  best_activity_match : Option Candidate
  best_activity_score : ℚ

/-- One iteration of the fallback-scoring loop (lines 191-213). -/
def fallbackStep (company_name : String) (st : FallbackState) (result : Candidate) : FallbackState :=
  let score := string_similarity company_name result.nom_complet
  let st1 :=
    if 10 < score ∧ st.best_score < score then
      { st with best_match := some result, best_score := score }
    else st
  if hasElectricalKeyword result ∧ (st1.best_activity_match = none ∨ st1.best_activity_score < score) then
    { st1 with best_activity_match := some result, best_activity_score := score }
  else st1

/-- Lines 186-233: score all candidates of the address-derived search and
select: the best candidate with score above 10 if any, otherwise the best
trade-keyword-flagged candidate, otherwise none. -/
def selectFallback (company_name : String) (address_results : List Candidate) : Option Candidate :=
  let st := address_results.foldl (fallbackStep company_name) ⟨none, -1, none, -1⟩
  match st.best_match with
  | some m => some m
  | none => st.best_activity_match

/-- The street-type keyword list of line 156. -/
def streetKeywords : List String :=
  ["rue", "avenue", "boulevard", "bd", "av", "rte", "route", "allée", "all",
   "chemin", "impasse", "place", "quai"]

/-- Lines 154-156: the address-derived fallback query keeps the tokens that
contain a digit or whose lower-casing is a street-type keyword. -/
def addressQuery (address : String) : String :=
  joinSp ((pySplit address).filter fun p =>
    p.data.any isDigitCh || streetKeywords.contains (pyLower p))

/-! ### Top-level `search_company` -/

/-- Outcome of one blocking HTTP search call, as seen by the core: a
success response with its parsed result list, a non-success status code
(lines 452-454 and 236-238), or a raised transport exception (caught at
lines 456-458). -/
inductive Transport where
  | ok (results : List Candidate)
  | err (status : Nat)
  | exn
deriving DecidableEq, Repr

/-- Lines 244-450: the tail of `search_company` once a candidate list is
fixed: pick by address and assemble.  (`pickByAddress` is total on nonempty
lists, and Python's truthiness test `if best_match:` on the selected dict
cannot fail on the structured records of the model.) -/
def searchFinish (address : String) (y : Int) (results : List Candidate) : Option ResultRecord :=
  match pickByAddress address results with
  | some best => some (assembleResult address y best)
  | none => none

/-- `search_company(company_name, address, token)` (lines 83-458), with the
two HTTP calls supplied as `Transport` oracles and `datetime.now().year`
as `y`.  Every non-success or raised transport outcome returns `none`, as
do the various no-candidate paths; a selected candidate is assembled into
a `ResultRecord`. -/
def search_company (company_name address : String) (y : Int)
    (primaryTransport fallbackTransport : Transport) : Option ResultRecord :=
  -- lines 88-138: the simplified name is only used to build the query of
  -- the primary search call, whose outcome is the `primaryTransport` oracle
  let _query := simplify_name company_name
  match primaryTransport with
  | .err _ => none
  | .exn => none
  | .ok results =>
    if results.isEmpty then
      if !(address == "") && !(placeholderStrings.contains (pyStrip address)) then
        let address_search := addressQuery address
        if !(pyStrip address_search == "") then
          match fallbackTransport with
          | .err _ => none
          | .exn => none
          | .ok address_results =>
            if address_results.isEmpty then none
            else
              match selectFallback company_name address_results with
              | some selected => searchFinish address y [selected]
              | none => none
        else none
      else none
    else searchFinish address y results

/-! ### Auxiliary definitions used only in the verification -/

/-- Numeric value of a digit string. -/
def yearVal (s : String) : Nat :=
  s.data.foldl (fun a c => 10 * a + (c.toNat - 48)) 0

/-- A four-character decimal digit string (the shape of registry birth
years). -/
def isDigit4 (s : String) : Bool := s.length == 4 && s.data.all isDigitCh

/-- Python `s <= t` on strings, via `pyStrLt`. -/
def pyStrLe (s t : String) : Bool := !(pyStrLt t s)

/-- The action of the six whole-word abbreviation substitutions on a single
word token. -/
def chainTok (g : List Char) : List Char :=
  abbrevPairs.foldl (fun t pr => if t = pr.1 then pr.2 else t) g

/-- The word-character runs of a character list, in order. -/
def wordRuns (x : List Char) : List (List Char) :=
  (groupRunsBy isWordCh x).filter (headIs isWordCh)

/-- Token lists interleaved with single-space gap runs, the run structure of
`joinTok`. -/
def interleaveSp : List (List Char) → List (List Char)
  | [] => []
  | [g] => [g]
  | g :: h :: gs => g :: [' '] :: interleaveSp (h :: gs)

/-- A well-formed run decomposition for predicate `p`: every run is
nonempty and homogeneous, adjacent runs have different classes, and the
first run's class differs from `ob` (the class of the run just before the
decomposition, when any). -/
inductive GoodRuns (p : Char → Bool) : Option Bool → List (List Char) → Prop where
  | nil : ∀ ob, GoodRuns p ob []
  | cons : ∀ (ob : Option Bool) (b : Bool) (g : List Char) (gs : List (List Char)),
      g ≠ [] → (∀ c ∈ g, p c = b) → ob ≠ some b →
      GoodRuns p (some b) gs → GoodRuns p ob (g :: gs)

/-! ## Theorems

First general lemmas about the embedded operations, then one theorem per
claim of the specification review (with concrete witnesses and
counterexamples where appropriate). -/

/-! ### C10: the creation date is truncated to its year -/

/-- C10: for every assembled result record, both the creation-date field
and the creation-year field equal the first four characters of the chosen
candidate's raw creation-date string when that string has length at least
4, and the empty string otherwise; in particular the exposed field never
has more than four characters. -/
theorem creation_year_truncated (address : String) (y : Int) (c : Candidate) :
    (assembleResult address y c).date_creation =
      (if 4 ≤ c.date_creation.length then (⟨c.date_creation.data.take 4⟩ : String) else "") ∧
    (assembleResult address y c).annee_creation = (assembleResult address y c).date_creation ∧
    (assembleResult address y c).date_creation.length ≤ 4 := by
  by_cases h4 : 4 ≤ c.date_creation.length
  · have hne : c.date_creation ≠ "" := by
      intro he
      rw [he] at h4
      simp at h4
    refine ⟨?_, rfl, ?_⟩
    · show (if c.date_creation ≠ "" ∧ 4 ≤ c.date_creation.length then
          (⟨c.date_creation.data.take 4⟩ : String) else "") = _
      rw [if_pos ⟨hne, h4⟩, if_pos h4]
    · show (if c.date_creation ≠ "" ∧ 4 ≤ c.date_creation.length then
          (⟨c.date_creation.data.take 4⟩ : String) else "").length ≤ 4
      rw [if_pos ⟨hne, h4⟩]
      show (c.date_creation.data.take 4).length ≤ 4
      simp
  · refine ⟨?_, rfl, ?_⟩
    · show (if c.date_creation ≠ "" ∧ 4 ≤ c.date_creation.length then
          (⟨c.date_creation.data.take 4⟩ : String) else "") = _
      rw [if_neg (fun h => h4 h.2), if_neg h4]
    · show (if c.date_creation ≠ "" ∧ 4 ≤ c.date_creation.length then
          (⟨c.date_creation.data.take 4⟩ : String) else "").length ≤ 4
      rw [if_neg (fun h => h4 h.2)]
      simp

/-! ### C1: transport failures yield the "no match" outcome -/

/-- C1: `search_company` is a total function into `Option ResultRecord`
(the embedding of "never raises for well-typed input": every exception of
the Python body is caught at lines 456-458), and a non-success transport
response or transport exception - of the primary call, or of the fallback
call after an empty primary result - yields the `none` ("no match")
outcome. -/
theorem search_company_transport_failure (company_name address : String) (y : Int)
    (p f : Transport)
    (h : (p = Transport.exn ∨ ∃ s, p = Transport.err s) ∨
      (p = Transport.ok [] ∧ (f = Transport.exn ∨ ∃ s, f = Transport.err s))) :
    search_company company_name address y p f = none := by
  rcases h with (h | ⟨hs, hf⟩)
  · rcases h with h | ⟨s, h⟩ <;> subst h <;> rfl
  · subst hs
    rcases hf with hf | ⟨s, hf⟩ <;> subst hf <;> simp [search_company]

/-- Witness for C1: a concrete failing primary call, and a concrete failing
fallback call after an empty primary result, both yield `none`. -/
theorem search_company_transport_failure_witness :
    search_company "ACME" "10 rue de Paris" 2025 (Transport.err 500) (Transport.ok []) = none ∧
    search_company "ACME" "10 rue de Paris" 2025 (Transport.ok []) Transport.exn = none :=
  ⟨search_company_transport_failure _ _ _ _ _ (Or.inl (Or.inr ⟨500, rfl⟩)),
   search_company_transport_failure _ _ _ _ _ (Or.inr ⟨rfl, Or.inl rfl⟩)⟩

/-! ### C6: simplification of "Dupont Electricité Paris" -/

/-- C6 counterexample: the claim states that simplifying
"Dupont Electricité Paris" yields exactly "Dupont Electricité"; the code
rebuilds the name from the upper-cased word list when a trailing city is
stripped, so the rest of the name is not returned unchanged. -/
theorem simplify_name_dupont_not_original_case :
    simplify_name "Dupont Electricité Paris" ≠ "Dupont Electricité" := by decide

/-- C6 amended: simplifying "Dupont Electricité Paris" strips the trailing
known city name and returns the remaining words upper-cased. -/
theorem simplify_name_dupont :
    simplify_name "Dupont Electricité Paris" = "DUPONT ELECTRICITÉ" := by decide

/-! ### C2: first address-matching candidate, else first candidate -/

/-- The selection loop returns the first candidate satisfying the address
matcher, in list order. -/
theorem pickLoop_eq_find (address : String) (rs : List Candidate) :
    pickLoop address rs = rs.find? (fun c => addresses_match address c.siege_adresse) := by
  induction rs with
  | nil => rfl
  | cons r rs ih =>
    by_cases h : addresses_match address r.siege_adresse
    · simp [pickLoop, h, List.find?]
    · simp only [pickLoop, if_neg h, ih, List.find?]
      rw [Bool.eq_false_iff.mpr h]

/-- C2: for every non-empty candidate list reaching the selection step, the
selector returns the first candidate whose headquarters address satisfies
the address matcher; when no candidate matches it returns the first
candidate of the list, whose address-match flag (recomputed at lines
368-370) is then false.  In particular a non-empty list never yields
`none`. -/
theorem pick_first_address_match (address : String) (rs : List Candidate) (h : rs ≠ []) :
    ∃ r, pickByAddress address rs = some r ∧
      ((rs.find? (fun c => addresses_match address c.siege_adresse) = some r ∧
        addresses_match address r.siege_adresse = true) ∨
       (rs.find? (fun c => addresses_match address c.siege_adresse) = none ∧
        rs.head? = some r ∧ addresses_match address r.siege_adresse = false)) := by
  unfold pickByAddress
  rw [pickLoop_eq_find]
  cases hf : rs.find? (fun c => addresses_match address c.siege_adresse) with
  | some r =>
    refine ⟨r, rfl, Or.inl ⟨rfl, ?_⟩⟩
    simpa using List.find?_some hf
  | none =>
    cases rs with
    | nil => exact absurd rfl h
    | cons a t =>
      refine ⟨a, rfl, Or.inr ⟨rfl, rfl, ?_⟩⟩
      have := List.find?_eq_none.mp hf a (List.mem_cons_self a t)
      simpa using this

/-- Witness for C2 at a concrete one-element candidate list whose address
does not match. -/
theorem pick_first_address_match_witness :
    (([⟨"", "", "", "", "", "", "", "", "", []⟩] : List Candidate) ≠ []) ∧
    ∃ r, pickByAddress "somewhere" [(⟨"", "", "", "", "", "", "", "", "", []⟩ : Candidate)] = some r ∧
      (([(⟨"", "", "", "", "", "", "", "", "", []⟩ : Candidate)].find?
          (fun c => addresses_match "somewhere" c.siege_adresse) = some r ∧
        addresses_match "somewhere" r.siege_adresse = true) ∨
       ([(⟨"", "", "", "", "", "", "", "", "", []⟩ : Candidate)].find?
          (fun c => addresses_match "somewhere" c.siege_adresse) = none ∧
        [(⟨"", "", "", "", "", "", "", "", "", []⟩ : Candidate)].head? = some r ∧
        addresses_match "somewhere" r.siege_adresse = false)) :=
  ⟨by decide, pick_first_address_match "somewhere" _ (by decide)⟩

/-! ### C8: postal-code veto in the address matcher -/

/-- C8: when neither normalized address is a substring of the other and
both raw addresses contain a 5-digit postal-code token, differing postal
codes force a non-match, regardless of the word overlap. -/
theorem addresses_match_postal_veto (orig api cp1 cp2 : String)
    (hsub1 : pyContains (clean_address api) (clean_address orig) = false)
    (hsub2 : pyContains (clean_address orig) (clean_address api) = false)
    (hp1 : findPostal orig = some cp1)
    (hp2 : findPostal api = some cp2)
    (hne : cp1 ≠ cp2) :
    addresses_match orig api = false := by
  unfold addresses_match
  dsimp only
  rw [hsub1, hsub2, hp1, hp2]
  split
  · rfl
  · split
    · rfl
    · split
      · rfl
      · simp only [Bool.or_self, Bool.false_eq_true, if_false]
        rw [if_pos hne]

/-- Witness for C8: the specification's example pair, with shared street
words but different postal codes. -/
theorem addresses_match_postal_veto_witness :
    pyContains (clean_address "10 RUE DE PARIS, 75002") (clean_address "10 Rue de Paris 75001") = false ∧
    findPostal "10 Rue de Paris 75001" = some "75001" ∧
    findPostal "10 RUE DE PARIS, 75002" = some "75002" ∧
    addresses_match "10 Rue de Paris 75001" "10 RUE DE PARIS, 75002" = false :=
  ⟨by decide, by decide, by decide,
    addresses_match_postal_veto _ _ "75001" "75002" (by decide) (by decide)
      (by decide) (by decide) (by decide)⟩

/-! ### C4: deduplication and the retained birth year -/

/-- The accumulated officer list after one loop iteration is the
deduplicating insertion of the extracted entry. -/
theorem stepOfficer_autres (y : Int) (s : OffState) (d : OfficerRaw) :
    (stepOfficer y s d).autres_dirigeants =
      insertD s.autres_dirigeants (extractInfo y d) := by
  unfold stepOfficer
  dsimp only
  split <;> split <;> rfl

/-- C4 counterexample: two raw officers with the same last name and first
first-name where only the second carries a birth year; the first-names
strings have equal length, so the merge keeps the first entry and the
deduplicated single entry carries the empty birth year, not "1980". -/
theorem officer_dedup_drops_year :
    ((runOfficers 2025 [⟨"DUPONT", "Jean", "", "", ""⟩, ⟨"DUPONT", "Jean", "", "1980", ""⟩]).autres_dirigeants.map
        DirInfo.annee) = [""] ∧
    ((runOfficers 2025 [⟨"DUPONT", "Jean", "", "", ""⟩, ⟨"DUPONT", "Jean", "", "1980", ""⟩]).autres_dirigeants.map
        DirInfo.annee) ≠ ["1980"] := by
  constructor
  · decide
  · decide

/-- C4 amended: for two raw officers sharing an identity key, deduplication
yields a single entry; that entry is the second officer's (so carries the
second's birth year) exactly when the second's first-names string is
strictly longer, and otherwise is the first officer's (so a birth year
carried only by the overwritten side is lost). -/
theorem officer_dedup_merge (y : Int) (o1 o2 : OfficerRaw)
    (hk : (extractInfo y o1).identifiant = (extractInfo y o2).identifiant)
    (_hy : (o1.annee = "" ∧ o2.annee ≠ "") ∨ (o1.annee ≠ "" ∧ o2.annee = "")) :
    (runOfficers y [o1, o2]).autres_dirigeants =
      [if (extractInfo y o1).prenoms.length < (extractInfo y o2).prenoms.length
        then extractInfo y o2 else extractInfo y o1] ∧
    ((runOfficers y [o1, o2]).autres_dirigeants.map DirInfo.annee =
      [if (extractInfo y o1).prenoms.length < (extractInfo y o2).prenoms.length
        then o2.annee else o1.annee]) := by
  have hbeq : ((extractInfo y o1).identifiant == (extractInfo y o2).identifiant) = true :=
    by simpa using hk
  have h1 : (runOfficers y [o1, o2]).autres_dirigeants =
      insertD (insertD [] (extractInfo y o1)) (extractInfo y o2) := by
    show (stepOfficer y (stepOfficer y initOffState o1) o2).autres_dirigeants = _
    rw [stepOfficer_autres, stepOfficer_autres]
    rfl
  constructor
  · rw [h1]
    simp [insertD, hbeq]
  · rw [h1]
    simp only [insertD, hbeq, if_true]
    split <;> rfl

/-- Witness for C4 (amended): the first officer carries the year but the
second's first-names string is strictly longer, so the merged entry is the
second's and the birth year "1980" is lost. -/
theorem officer_dedup_merge_witness :
    (extractInfo 2025 (⟨"DUPONT", "Jean", "", "1980", ""⟩ : OfficerRaw)).identifiant =
      (extractInfo 2025 (⟨"DUPONT", "Jean Pierre", "", "", ""⟩ : OfficerRaw)).identifiant ∧
    ((runOfficers 2025 [⟨"DUPONT", "Jean", "", "1980", ""⟩,
        ⟨"DUPONT", "Jean Pierre", "", "", ""⟩]).autres_dirigeants.map DirInfo.annee = [""]) :=
  ⟨by decide,
    ((officer_dedup_merge 2025 ⟨"DUPONT", "Jean", "", "1980", ""⟩
        ⟨"DUPONT", "Jean Pierre", "", "", ""⟩ (by decide) (by decide)).2).trans (by decide)⟩

/-! ### C7: fallback selection by trade keyword -/

/-- Candidates with similarity score at most 10 and no trade keyword leave
the fallback-scoring state unchanged. -/
theorem foldl_fallback_const (company_name : String) (l : List Candidate)
    (st : FallbackState)
    (hsc : ∀ c ∈ l, string_similarity company_name c.nom_complet ≤ 10)
    (hfl : ∀ c ∈ l, hasElectricalKeyword c = false) :
    l.foldl (fallbackStep company_name) st = st := by
  induction l generalizing st with
  | nil => rfl
  | cons c l ih =>
    have hsc1 := hsc c (List.mem_cons_self c l)
    have hfl1 := hfl c (List.mem_cons_self c l)
    have h1 : ¬(10 < string_similarity company_name c.nom_complet ∧
        st.best_score < string_similarity company_name c.nom_complet) :=
      fun h => absurd h.1 (not_lt.mpr hsc1)
    have hstep : fallbackStep company_name st c = st := by
      unfold fallbackStep
      dsimp only
      rw [if_neg h1]
      exact if_neg (fun h => by simp [hfl1] at h)
    rw [List.foldl_cons, hstep]
    exact ih st (fun e he => hsc e (List.mem_cons_of_mem c he))
      (fun e he => hfl e (List.mem_cons_of_mem c he))

/-- C7: in the fallback address-derived search, when no candidate's
name-similarity score exceeds 10 and exactly one candidate's combined
name/description/activity text carries an electrical-trade keyword, that
flagged candidate is selected (so the resolution does not fail), even
though its own score is at most 10. -/
theorem selectFallback_keyword (company_name : String) (results : List Candidate)
    (r : Candidate)
    (hsc : ∀ c ∈ results, string_similarity company_name c.nom_complet ≤ 10)
    (hfl : results.filter hasElectricalKeyword = [r]) :
    selectFallback company_name results = some r := by
  induction results with
  | nil => simp at hfl
  | cons c l ih =>
    by_cases hc : hasElectricalKeyword c = true
    · rw [List.filter_cons_of_pos hc] at hfl
      have hcr : c = r := (List.cons_eq_cons.mp hfl).1
      have hl : l.filter hasElectricalKeyword = [] := (List.cons_eq_cons.mp hfl).2
      have hlf : ∀ e ∈ l, hasElectricalKeyword e = false := by
        intro e he
        have := List.filter_eq_nil_iff.mp hl e he
        simpa using this
      have hscore := hsc c (List.mem_cons_self c l)
      have h1 : ¬(10 < string_similarity company_name c.nom_complet ∧
          (⟨none, -1, none, -1⟩ : FallbackState).best_score <
            string_similarity company_name c.nom_complet) :=
        fun h => absurd h.1 (not_lt.mpr hscore)
      have hstep : fallbackStep company_name ⟨none, -1, none, -1⟩ c =
          ⟨none, -1, some c, string_similarity company_name c.nom_complet⟩ := by
        unfold fallbackStep
        dsimp only
        rw [if_neg h1]
        rw [if_pos ⟨hc, Or.inl rfl⟩]
      unfold selectFallback
      dsimp only
      rw [List.foldl_cons, hstep,
        foldl_fallback_const company_name l _
          (fun e he => hsc e (List.mem_cons_of_mem c he)) hlf]
      rw [hcr]
    · have hcf : hasElectricalKeyword c = false := Bool.eq_false_iff.mpr hc
      rw [List.filter_cons_of_neg (by simp [hcf])] at hfl
      have hscore := hsc c (List.mem_cons_self c l)
      have h1 : ¬(10 < string_similarity company_name c.nom_complet ∧
          (⟨none, -1, none, -1⟩ : FallbackState).best_score <
            string_similarity company_name c.nom_complet) :=
        fun h => absurd h.1 (not_lt.mpr hscore)
      have hstep : fallbackStep company_name ⟨none, -1, none, -1⟩ c = ⟨none, -1, none, -1⟩ := by
        unfold fallbackStep
        dsimp only
        rw [if_neg h1]
        rw [if_neg (fun h => by simp [hcf] at h)]
      have := ih (fun e he => hsc e (List.mem_cons_of_mem c he)) hfl
      unfold selectFallback at this ⊢
      dsimp only at this ⊢
      rwa [List.foldl_cons, hstep]

/-- Witness for C7: two fallback candidates with scores at most 10, of
which exactly the first carries a trade keyword in its combined text; it is
selected. -/
theorem selectFallback_keyword_witness :
    (∀ c ∈ [(⟨"111111111", "ZZZZ", "A", "", "", "", "ELEC", "", "", []⟩ : Candidate),
        (⟨"222222222", "YYYY", "A", "", "", "", "", "", "", []⟩ : Candidate)],
      string_similarity "ACME" c.nom_complet ≤ 10) ∧
    ([(⟨"111111111", "ZZZZ", "A", "", "", "", "ELEC", "", "", []⟩ : Candidate),
        (⟨"222222222", "YYYY", "A", "", "", "", "", "", "", []⟩ : Candidate)].filter
      hasElectricalKeyword = [⟨"111111111", "ZZZZ", "A", "", "", "", "ELEC", "", "", []⟩]) ∧
    selectFallback "ACME"
        [(⟨"111111111", "ZZZZ", "A", "", "", "", "ELEC", "", "", []⟩ : Candidate),
         (⟨"222222222", "YYYY", "A", "", "", "", "", "", "", []⟩ : Candidate)] =
      some ⟨"111111111", "ZZZZ", "A", "", "", "", "ELEC", "", "", []⟩ :=
  ⟨by with_unfolding_all decide, by decide,
    selectFallback_keyword "ACME" _ _ (by with_unfolding_all decide) (by decide)⟩

/-! ### C5: invariants of the alternate-officers list -/

/-- Identity keys in the deduplicated list are among the previous keys plus
the inserted entry's key. -/
theorem insertD_ids_sub (autres : List DirInfo) (info : DirInfo) :
    ∀ e ∈ insertD autres info,
      e.identifiant ∈ autres.map DirInfo.identifiant ∨ e.identifiant = info.identifiant := by
  induction autres with
  | nil =>
    intro e he
    simp only [insertD, List.mem_singleton] at he
    subst he
    exact Or.inr rfl
  | cons a t ih =>
    intro e he
    unfold insertD at he
    by_cases hb : (a.identifiant == info.identifiant) = true
    · rw [if_pos hb] at he
      rcases List.mem_cons.mp he with h | h
      · subst h
        split
        · exact Or.inr rfl
        · exact Or.inl (by simp)
      · exact Or.inl (by simp [List.mem_map]; exact Or.inr ⟨e, h, rfl⟩)
    · rw [if_neg hb] at he
      rcases List.mem_cons.mp he with h | h
      · subst h
        exact Or.inl (by simp)
      · rcases ih e h with hm | hm
        · exact Or.inl (by simp only [List.map_cons, List.mem_cons]; exact Or.inr (by simpa using hm))
        · exact Or.inr hm

/-- Deduplicating insertion preserves pairwise-distinct identity keys. -/
theorem insertD_pairwise (autres : List DirInfo) (info : DirInfo)
    (h : autres.Pairwise (fun a b => a.identifiant ≠ b.identifiant)) :
    (insertD autres info).Pairwise (fun a b => a.identifiant ≠ b.identifiant) := by
  induction autres with
  | nil => simp [insertD]
  | cons a t ih =>
    rw [List.pairwise_cons] at h
    obtain ⟨ha, ht⟩ := h
    unfold insertD
    by_cases hb : (a.identifiant == info.identifiant) = true
    · rw [if_pos hb, List.pairwise_cons]
      refine ⟨?_, ht⟩
      intro b hbt
      have hkey : (if a.prenoms.length < info.prenoms.length then info else a).identifiant =
          a.identifiant := by
        split
        · exact (eq_of_beq hb).symm
        · rfl
      rw [hkey]
      exact ha b hbt
    · rw [if_neg hb, List.pairwise_cons]
      refine ⟨?_, ih ht⟩
      intro b hbt
      rcases insertD_ids_sub t info b hbt with hm | hm
      · obtain ⟨e, he, hee⟩ := List.mem_map.mp hm
        intro hcon
        exact ha e he (hcon.trans hee.symm)
      · intro hcon
        exact hb (by rw [hcon, hm]; exact beq_self_eq_true _)

/-- Deduplicating insertion preserves the shape of identity keys
(`identifiant = nom ++ "_" ++ premier_prenom`). -/
theorem insertD_wf (autres : List DirInfo) (info : DirInfo)
    (ha : ∀ e ∈ autres, e.identifiant = e.nom ++ "_" ++ e.premier_prenom)
    (hi : info.identifiant = info.nom ++ "_" ++ info.premier_prenom) :
    ∀ e ∈ insertD autres info, e.identifiant = e.nom ++ "_" ++ e.premier_prenom := by
  induction autres with
  | nil =>
    intro e he
    simp only [insertD, List.mem_singleton] at he
    subst he
    exact hi
  | cons a t ih =>
    intro e he
    unfold insertD at he
    by_cases hb : (a.identifiant == info.identifiant) = true
    · rw [if_pos hb] at he
      rcases List.mem_cons.mp he with h | h
      · subst h
        split
        · exact hi
        · exact ha a (List.mem_cons_self a t)
      · exact ha e (List.mem_cons_of_mem a h)
    · rw [if_neg hb] at he
      rcases List.mem_cons.mp he with h | h
      · rw [h]
        exact ha a (List.mem_cons_self a t)
      · exact ih (fun x hx => ha x (List.mem_cons_of_mem a hx)) e h

/-- The officer accumulator always carries pairwise-distinct identity keys
of the shape `nom ++ "_" ++ premier_prenom`. -/
theorem runOfficers_autres_inv (y : Int) (ds : List OfficerRaw) :
    (runOfficers y ds).autres_dirigeants.Pairwise (fun a b => a.identifiant ≠ b.identifiant) ∧
      ∀ e ∈ (runOfficers y ds).autres_dirigeants,
        e.identifiant = e.nom ++ "_" ++ e.premier_prenom := by
  have main : ∀ (l : List OfficerRaw) (st : OffState),
      st.autres_dirigeants.Pairwise (fun a b => a.identifiant ≠ b.identifiant) →
      (∀ e ∈ st.autres_dirigeants, e.identifiant = e.nom ++ "_" ++ e.premier_prenom) →
      (l.foldl (stepOfficer y) st).autres_dirigeants.Pairwise
          (fun a b => a.identifiant ≠ b.identifiant) ∧
        ∀ e ∈ (l.foldl (stepOfficer y) st).autres_dirigeants,
          e.identifiant = e.nom ++ "_" ++ e.premier_prenom := by
    intro l
    induction l with
    | nil => exact fun st h1 h2 => ⟨h1, h2⟩
    | cons d t ih =>
      intro st h1 h2
      rw [List.foldl_cons]
      refine ih _ ?_ ?_
      · rw [stepOfficer_autres]
        exact insertD_pairwise _ _ h1
      · rw [stepOfficer_autres]
        exact insertD_wf _ _ h2 rfl
  exact main ds initOffState (by simp [initOffState]) (by simp [initOffState])

/-- C5: for every resolved entity, the alternate-officers list has at most
5 entries, pairwise-distinct identity keys `lastName ++ "_" ++
firstFirstName`, and no entry whose (last name, first first-name) pair
equals the primary officer's pair. -/
theorem alternates_invariants (y : Int) (ds : List OfficerRaw) :
    (alternatesOf (runOfficers y ds)).length ≤ 5 ∧
    ((alternatesOf (runOfficers y ds)).map (fun a => a.nom ++ "_" ++ a.prenoms)).Pairwise (· ≠ ·) ∧
    ∀ a ∈ alternatesOf (runOfficers y ds),
      ¬(a.nom = (runOfficers y ds).nom_dirigeant ∧
        a.prenoms = (runOfficers y ds).prenom_dirigeant) := by
  obtain ⟨hpw, hwf⟩ := runOfficers_autres_inv y ds
  refine ⟨?_, ?_, ?_⟩
  · unfold alternatesOf
    rw [List.length_map]
    exact List.length_take_le 5 _
  · unfold alternatesOf
    rw [List.map_map, List.pairwise_map]
    have hsub : List.Sublist
        (((runOfficers y ds).autres_dirigeants.filter fun d =>
          !(d.nom == (runOfficers y ds).nom_dirigeant &&
            d.premier_prenom == (runOfficers y ds).prenom_dirigeant)).take 5)
        (runOfficers y ds).autres_dirigeants :=
      (List.take_sublist _ _).trans (List.filter_sublist _)
    refine List.Pairwise.imp_of_mem ?_ (hpw.sublist hsub)
    intro a b hma hmb hne
    have hwa := hwf a (hsub.subset hma)
    have hwb := hwf b (hsub.subset hmb)
    show a.nom ++ "_" ++ a.premier_prenom ≠ b.nom ++ "_" ++ b.premier_prenom
    rw [← hwa, ← hwb]
    exact hne
  · intro a ha
    unfold alternatesOf at ha
    obtain ⟨d, hd, hda⟩ := List.mem_map.mp ha
    have hdf := List.mem_of_mem_take hd
    have hq := (List.mem_filter.mp hdf).2
    intro hcon
    rw [← hda] at hcon
    simp only [Bool.not_eq_eq_eq_not, Bool.not_true, Bool.and_eq_false_imp,
      beq_eq_false_iff_ne, ne_eq, beq_iff_eq] at hq
    exact hq hcon.1 hcon.2

/-! ### C3: primary officer selection (string-lexicographic year comparison) -/

/-- The lexicographic comparison is irreflexive. -/
theorem pyStrLtL_irrefl (l : List Char) : pyStrLtL l l = false := by
  induction l with
  | nil => rfl
  | cons c cs ih => simp [pyStrLtL, ih]

/-- The lexicographic comparison is asymmetric. -/
theorem pyStrLtL_asymm {a b : List Char} (h : pyStrLtL a b = true) : pyStrLtL b a = false := by
  induction a generalizing b with
  | nil =>
    cases b with
    | nil => simp [pyStrLtL] at h
    | cons d ds => rfl
  | cons c cs ih =>
    cases b with
    | nil => simp [pyStrLtL] at h
    | cons d ds =>
      unfold pyStrLtL at h ⊢
      by_cases h1 : c.toNat < d.toNat
      · rw [if_neg (Nat.lt_asymm h1), if_pos h1]
      · rw [if_neg h1] at h
        by_cases h2 : d.toNat < c.toNat
        · rw [if_pos h2] at h
          exact absurd h (by simp)
        · rw [if_neg h2] at h
          rw [if_neg h2, if_neg h1]
          exact ih h

/-- Two lists neither of which lexicographically precedes the other are
equal. -/
theorem pyStrLtL_eq_of_not_lt {a b : List Char} (h1 : pyStrLtL a b = false)
    (h2 : pyStrLtL b a = false) : a = b := by
  induction a generalizing b with
  | nil =>
    cases b with
    | nil => rfl
    | cons d ds => simp [pyStrLtL] at h1
  | cons c cs ih =>
    cases b with
    | nil => simp [pyStrLtL] at h2
    | cons d ds =>
      unfold pyStrLtL at h1 h2
      by_cases hcd : c.toNat < d.toNat
      · rw [if_pos hcd] at h1
        exact absurd h1 (by simp)
      · by_cases hdc : d.toNat < c.toNat
        · rw [if_pos hdc] at h2
          exact absurd h2 (by simp)
        · rw [if_neg hcd, if_neg hdc] at h1
          have hce : c = d :=
            Char.eq_of_val_eq (UInt32.toNat.inj
              (Nat.le_antisymm (Nat.le_of_not_lt hdc) (Nat.le_of_not_lt hcd)))
          rw [hce, ih h1 (by rw [if_neg hdc, if_neg hcd] at h2; exact h2)]

/-- The lexicographic comparison is transitive. -/
theorem pyStrLtL_trans {a b c : List Char} (h1 : pyStrLtL a b = true)
    (h2 : pyStrLtL b c = true) : pyStrLtL a c = true := by
  induction a generalizing b c with
  | nil =>
    cases c with
    | nil => cases b <;> simp [pyStrLtL] at h2
    | cons z zs => rfl
  | cons x xs ih =>
    cases b with
    | nil => simp [pyStrLtL] at h1
    | cons y ys =>
      cases c with
      | nil => simp [pyStrLtL] at h2
      | cons z zs =>
        unfold pyStrLtL at h1 h2 ⊢
        by_cases hxy : x.toNat < y.toNat
        · by_cases hyz : y.toNat < z.toNat
          · rw [if_pos (Nat.lt_trans hxy hyz)]
          · rw [if_neg hyz] at h2
            by_cases hzy : z.toNat < y.toNat
            · rw [if_pos hzy] at h2
              exact absurd h2 (by simp)
            · have hyzeq : y.toNat = z.toNat :=
                Nat.le_antisymm (Nat.le_of_not_lt hzy) (Nat.le_of_not_lt hyz)
              rw [if_pos (hyzeq ▸ hxy)]
        · rw [if_neg hxy] at h1
          by_cases hyx : y.toNat < x.toNat
          · rw [if_pos hyx] at h1
            exact absurd h1 (by simp)
          · rw [if_neg hyx] at h1
            have hxyeq : x.toNat = y.toNat :=
              Nat.le_antisymm (Nat.le_of_not_lt hyx) (Nat.le_of_not_lt hxy)
            by_cases hyz : y.toNat < z.toNat
            · rw [if_pos (hxyeq ▸ hyz)]
            · rw [if_neg hyz] at h2
              by_cases hzy : z.toNat < y.toNat
              · rw [if_pos hzy] at h2
                exact absurd h2 (by simp)
              · rw [if_neg hzy] at h2
                rw [if_neg (fun hc => hyz (hxyeq ▸ hc)), if_neg (fun hc => hzy (hxyeq ▸ hc))]
                exact ih h1 h2

/-- From `a ≥ b` and `b < c` conclude `a < c` (lexicographically). -/
theorem pyStrLtL_lt_of_le_of_lt {a b c : List Char} (h1 : pyStrLtL b a = false)
    (h2 : pyStrLtL b c = true) : pyStrLtL a c = true := by
  by_cases hac : pyStrLtL a c = true
  · exact hac
  · exfalso
    by_cases hca : pyStrLtL c a = true
    · have hba := pyStrLtL_trans h2 hca
      rw [h1] at hba
      exact Bool.false_ne_true hba
    · have heq : a = c :=
        pyStrLtL_eq_of_not_lt (Bool.eq_false_iff.mpr hac) (Bool.eq_false_iff.mpr hca)
      rw [heq] at h1
      rw [h1] at h2
      exact Bool.false_ne_true h2

/-- Accumulator form of the digit-string value. -/
theorem valL_foldl_acc (l : List Char) : ∀ a : Nat,
    l.foldl (fun n c => 10 * n + (c.toNat - 48)) a =
      a * 10 ^ l.length + l.foldl (fun n c => 10 * n + (c.toNat - 48)) 0 := by
  induction l with
  | nil => intro a; simp
  | cons c cs ih =>
    intro a
    rw [List.foldl_cons, List.foldl_cons, ih (10 * a + (c.toNat - 48)),
      ih (10 * 0 + (c.toNat - 48))]
    simp only [List.length_cons, pow_succ]
    ring

/-- Value bound for digit strings. -/
theorem valL_lt_pow (l : List Char) (h : l.all isDigitCh = true) :
    l.foldl (fun n c => 10 * n + (c.toNat - 48)) 0 < 10 ^ l.length := by
  induction l with
  | nil => simp
  | cons c cs ih =>
    rw [List.all_cons, Bool.and_eq_true] at h
    have hc : c.toNat - 48 ≤ 9 := by
      have := (of_decide_eq_true h.1).2
      omega
    rw [List.foldl_cons, valL_foldl_acc]
    calc (10 * 0 + (c.toNat - 48)) * 10 ^ cs.length +
          cs.foldl (fun n c => 10 * n + (c.toNat - 48)) 0
        < (10 * 0 + (c.toNat - 48)) * 10 ^ cs.length + 10 ^ cs.length := by
          exact Nat.add_lt_add_left (ih h.2) _
      _ ≤ 9 * 10 ^ cs.length + 10 ^ cs.length := by
          have h9 : (10 * 0 + (c.toNat - 48)) ≤ 9 := by omega
          exact Nat.add_le_add_right (Nat.mul_le_mul_right _ h9) _
      _ = 10 * 10 ^ cs.length := by ring
      _ = 10 ^ (c :: cs).length := by
          rw [List.length_cons, pow_succ]
          ring

/-- On equal-length digit strings the lexicographic order agrees with the
numeric order (forward direction). -/
theorem valL_lt_of_pyStrLtL : ∀ (a b : List Char), a.length = b.length →
    a.all isDigitCh = true → b.all isDigitCh = true → pyStrLtL a b = true →
    a.foldl (fun n c => 10 * n + (c.toNat - 48)) 0 <
      b.foldl (fun n c => 10 * n + (c.toNat - 48)) 0 := by
  intro a
  induction a with
  | nil =>
    intro b hlen _ _ hlt
    cases b with
    | nil => simp [pyStrLtL] at hlt
    | cons d ds => simp at hlen
  | cons c cs ih =>
    intro b hlen ha hb hlt
    cases b with
    | nil => simp [pyStrLtL] at hlt
    | cons d ds =>
      rw [List.all_cons, Bool.and_eq_true] at ha hb
      have hlen' : cs.length = ds.length := by simpa using hlen
      have hcb := of_decide_eq_true ha.1
      have hdb := of_decide_eq_true hb.1
      rw [List.foldl_cons, List.foldl_cons,
        valL_foldl_acc cs (10 * 0 + (c.toNat - 48)),
        valL_foldl_acc ds (10 * 0 + (d.toNat - 48))]
      unfold pyStrLtL at hlt
      by_cases hcd : c.toNat < d.toNat
      · have hgg : c.toNat - 48 < d.toNat - 48 := by omega
        have hv1 := valL_lt_pow cs ha.2
        have hv2 := valL_lt_pow ds hb.2
        rw [hlen']
        calc (10 * 0 + (c.toNat - 48)) * 10 ^ ds.length +
              cs.foldl (fun n c => 10 * n + (c.toNat - 48)) 0
            < (10 * 0 + (c.toNat - 48)) * 10 ^ ds.length + 10 ^ ds.length := by
              rw [← hlen']
              exact Nat.add_lt_add_left hv1 _
          _ = ((c.toNat - 48) + 1) * 10 ^ ds.length := by ring
          _ ≤ (d.toNat - 48) * 10 ^ ds.length := Nat.mul_le_mul_right _ (by omega)
          _ ≤ (10 * 0 + (d.toNat - 48)) * 10 ^ ds.length +
              ds.foldl (fun n c => 10 * n + (c.toNat - 48)) 0 := by
              simp
      · rw [if_neg hcd] at hlt
        by_cases hdc : d.toNat < c.toNat
        · rw [if_pos hdc] at hlt
          exact absurd hlt (by simp)
        · rw [if_neg hdc] at hlt
          have hcde : c.toNat = d.toNat :=
            Nat.le_antisymm (Nat.le_of_not_lt hdc) (Nat.le_of_not_lt hcd)
          rw [hcde, hlen']
          exact Nat.add_lt_add_left (ih ds hlen' ha.2 hb.2 hlt) _

/-- On four-digit strings, `a ≤ b` lexicographically implies `a ≤ b`
numerically. -/
theorem yearVal_le_of_not_lt {a b : String} (ha : isDigit4 a = true)
    (hb : isDigit4 b = true) (h : pyStrLt b a = false) : yearVal a ≤ yearVal b := by
  rw [isDigit4, Bool.and_eq_true] at ha hb
  have hlen : a.data.length = b.data.length := by
    have h1 : a.length = 4 := by simpa using ha.1
    have h2 : b.length = 4 := by simpa using hb.1
    show a.length = b.length
    rw [h1, h2]
  by_cases hab : pyStrLtL a.data b.data = true
  · exact le_of_lt (valL_lt_of_pyStrLtL a.data b.data hlen ha.2 hb.2 hab)
  · have : a.data = b.data :=
      pyStrLtL_eq_of_not_lt (Bool.eq_false_iff.mpr hab) h
    rw [yearVal, yearVal, this]

/-- A four-digit string is lexicographically greater than `"0"`. -/
theorem pyStrLt_zero_of_digit4 {s : String} (h : isDigit4 s = true) :
    pyStrLt "0" s = true := by
  rw [isDigit4, Bool.and_eq_true] at h
  obtain ⟨l⟩ := s
  have h1 : l.length = 4 := by simpa using h.1
  obtain ⟨c1, c2, c3, c4, rfl⟩ : ∃ c1 c2 c3 c4, l = [c1, c2, c3, c4] := by
    rcases l with _ | ⟨c1, _ | ⟨c2, _ | ⟨c3, _ | ⟨c4, _ | ⟨c5, t⟩⟩⟩⟩⟩
    · simp at h1
    · simp at h1
    · simp at h1
    · simp at h1
    · exact ⟨c1, c2, c3, c4, rfl⟩
    · simp at h1
  have hc1 : 48 ≤ c1.toNat := by
    have h2 := h.2
    rw [List.all_cons, Bool.and_eq_true] at h2
    exact (of_decide_eq_true h2.1).1
  show pyStrLtL ['0'] [c1, c2, c3, c4] = true
  unfold pyStrLtL
  by_cases hlt : Char.toNat '0' < c1.toNat
  · rw [if_pos hlt]
  · have h0 : Char.toNat '0' = 48 := rfl
    rw [if_neg hlt, if_neg (show ¬(c1.toNat < Char.toNat '0') by omega)]
    rfl

/-- The empty string lexicographically precedes every nonempty string. -/
theorem pyStrLt_empty {s : String} (h : s ≠ "") : pyStrLt "" s = true := by
  obtain ⟨l⟩ := s
  cases l with
  | nil => exact absurd rfl h
  | cons c cs => rfl

/-- A fired year comparison promotes this officer to primary. -/
theorem stepOfficer_pos (y : Int) (s : OffState) (d : OfficerRaw)
    (h : (!((extractInfo y d).annee == "") &&
      (s.annee_naissance_max == "" ||
        pyStrLt s.annee_naissance_max (extractInfo y d).annee)) = true) :
    (stepOfficer y s d).annee_naissance_max = (extractInfo y d).annee ∧
    (stepOfficer y s d).nom_dirigeant = (extractInfo y d).nom ∧
    (stepOfficer y s d).prenom_dirigeant = (extractInfo y d).premier_prenom ∧
    (stepOfficer y s d).qualite_dirigeant = (extractInfo y d).qualite := by
  unfold stepOfficer
  dsimp only
  rw [if_pos h]
  exact ⟨rfl, rfl, rfl, rfl⟩

/-- An unfired year comparison leaves the primary fields unchanged as long
as the current primary has a nonempty last name (so the provisional-primary
branch cannot fire either). -/
theorem stepOfficer_neg (y : Int) (s : OffState) (d : OfficerRaw)
    (hcond : (!((extractInfo y d).annee == "") &&
      (s.annee_naissance_max == "" ||
        pyStrLt s.annee_naissance_max (extractInfo y d).annee)) = false)
    (hnomD : s.nom_dirigeant ≠ "") :
    (stepOfficer y s d).annee_naissance_max = s.annee_naissance_max ∧
    (stepOfficer y s d).nom_dirigeant = s.nom_dirigeant ∧
    (stepOfficer y s d).prenom_dirigeant = s.prenom_dirigeant ∧
    (stepOfficer y s d).qualite_dirigeant = s.qualite_dirigeant := by
  unfold stepOfficer
  dsimp only
  rw [if_neg (by rw [hcond]; exact Bool.false_ne_true)]
  rw [if_neg (fun hc : (_ && _ && _) = true =>
    hnomD (eq_of_beq ((Bool.and_eq_true _ _).mp ((Bool.and_eq_true _ _).mp hc).1).1))]
  exact ⟨rfl, rfl, rfl, rfl⟩

/-- An officer without a birth year never changes the running maximum. -/
theorem stepOfficer_max_no_year (y : Int) (s : OffState) (d : OfficerRaw)
    (h : d.annee = "") :
    (stepOfficer y s d).annee_naissance_max = s.annee_naissance_max := by
  unfold stepOfficer
  dsimp only
  rw [if_neg (fun hc : (_ && _) = true => by
    rw [show (extractInfo y d).annee = d.annee from rfl, h] at hc
    simp at hc)]
  split <;> rfl

/-- Over a list of officers without birth years the running maximum is
constant. -/
theorem foldl_max_no_year (y : Int) (l : List OfficerRaw)
    (hy : ∀ e ∈ l, e.annee = "") :
    ∀ st : OffState,
      (l.foldl (stepOfficer y) st).annee_naissance_max = st.annee_naissance_max := by
  induction l with
  | nil => intro st; rfl
  | cons d t ih =>
    intro st
    rw [List.foldl_cons, ih (fun e he => hy e (List.mem_cons_of_mem d he)),
      stepOfficer_max_no_year y st d (hy d (List.mem_cons_self d t))]

/-- C3 amended: the officer loop compares birth years as Python strings,
lexicographically by code point, so the primary officer is the first
officer attaining the lexicographically greatest birth-year string (with the
empty year treated as smallest).  When every birth year present is a
four-digit digit string - the registry's format - the primary's year is
also numerically greatest.  Hypotheses: some officer carries a year, and
every officer's processed last name is nonempty (so the provisional-primary
branch cannot overwrite the year-based primary). -/
theorem officer_primary_highest_year (y : Int) (ds : List OfficerRaw)
    (hd4 : ∀ d ∈ ds, d.annee = "" ∨ isDigit4 d.annee = true)
    (hx : ∃ d ∈ ds, d.annee ≠ "")
    (hnom : ∀ d ∈ ds, (extractInfo y d).nom ≠ "") :
    ∃ l₁ d l₂, ds = l₁ ++ d :: l₂ ∧ d.annee ≠ "" ∧
      (∀ e ∈ l₁, pyStrLt e.annee d.annee = true) ∧
      (∀ e ∈ ds, e.annee = "" ∨ pyStrLt d.annee e.annee = false) ∧
      (∀ e ∈ ds, e.annee = "" ∨ yearVal e.annee ≤ yearVal d.annee) ∧
      (runOfficers y ds).annee_naissance_max = d.annee ∧
      (runOfficers y ds).nom_dirigeant = (extractInfo y d).nom ∧
      (runOfficers y ds).prenom_dirigeant = (extractInfo y d).premier_prenom ∧
      (runOfficers y ds).qualite_dirigeant = (extractInfo y d).qualite := by
  induction ds using List.reverseRecOn with
  | nil =>
    obtain ⟨d, hd, _⟩ := hx
    exact absurd hd (List.not_mem_nil d)
  | append_singleton ds d ih =>
    have hrun : runOfficers y (ds ++ [d]) = stepOfficer y (runOfficers y ds) d := by
      unfold runOfficers
      rw [List.foldl_append]
      rfl
    have hdmem : d ∈ ds ++ [d] := List.mem_append_right _ (List.mem_singleton_self d)
    by_cases hprev : ∃ e ∈ ds, e.annee ≠ ""
    · obtain ⟨l₁, dm, l₂, hsplit, hdm, hl₁, hle, hval, hmax, hnomf, hprenf, hqualf⟩ :=
        ih (fun e he => hd4 e (List.mem_append_left _ he))
          hprev (fun e he => hnom e (List.mem_append_left _ he))
      have hdmmem : dm ∈ ds := by
        rw [hsplit]
        exact List.mem_append_right _ (List.mem_cons_self _ _)
      have hnomD : (runOfficers y ds).nom_dirigeant ≠ "" := by
        rw [hnomf]
        exact hnom dm (List.mem_append_left _ hdmmem)
      have hmaxbeq : ((runOfficers y ds).annee_naissance_max == "") = false := by
        rw [beq_eq_false_iff_ne, hmax]
        exact hdm
      by_cases hde : d.annee = ""
      · have hcond : (!((extractInfo y d).annee == "") &&
            ((runOfficers y ds).annee_naissance_max == "" ||
              pyStrLt (runOfficers y ds).annee_naissance_max (extractInfo y d).annee)) = false := by
          rw [show (extractInfo y d).annee = d.annee from rfl, hde]
          simp
        obtain ⟨hm2, hn2, hp2, hq2⟩ := stepOfficer_neg y _ d hcond hnomD
        refine ⟨l₁, dm, l₂ ++ [d], by rw [hsplit]; simp, hdm, hl₁, ?_, ?_,
          hrun ▸ (hm2.trans hmax), hrun ▸ (hn2.trans hnomf),
          hrun ▸ (hp2.trans hprenf), hrun ▸ (hq2.trans hqualf)⟩
        · intro e he
          rcases List.mem_append.mp he with h | h
          · exact hle e h
          · rw [List.mem_singleton.mp h, hde]
            exact Or.inl rfl
        · intro e he
          rcases List.mem_append.mp he with h | h
          · exact hval e h
          · rw [List.mem_singleton.mp h, hde]
            exact Or.inl rfl
      · by_cases hlt : pyStrLt (runOfficers y ds).annee_naissance_max d.annee = true
        · have hcond : (!((extractInfo y d).annee == "") &&
              ((runOfficers y ds).annee_naissance_max == "" ||
                pyStrLt (runOfficers y ds).annee_naissance_max (extractInfo y d).annee)) = true := by
            rw [show (extractInfo y d).annee = d.annee from rfl, hmaxbeq, hlt]
            simp [hde]
          obtain ⟨hm2, hn2, hp2, hq2⟩ := stepOfficer_pos y _ d hcond
          have hdmlt : pyStrLt dm.annee d.annee = true := hmax ▸ hlt
          have hstrict : ∀ e ∈ ds, pyStrLt e.annee d.annee = true := by
            intro e he
            rcases hle e he with h | h
            · rw [h]
              exact pyStrLt_empty hde
            · exact pyStrLtL_lt_of_le_of_lt h hdmlt
          have hd4d : isDigit4 d.annee = true := by
            rcases hd4 d hdmem with h | h
            · exact absurd h hde
            · exact h
          refine ⟨ds, d, [], rfl, hde, hstrict, ?_, ?_,
            hrun ▸ hm2, hrun ▸ hn2, hrun ▸ hp2, hrun ▸ hq2⟩
          · intro e he
            rcases List.mem_append.mp he with h | h
            · exact Or.inr (pyStrLtL_asymm (hstrict e h))
            · rw [List.mem_singleton.mp h]
              exact Or.inr (pyStrLtL_irrefl _)
          · intro e he
            rcases List.mem_append.mp he with h | h
            · rcases hd4 e (List.mem_append_left _ h) with h4 | h4
              · exact Or.inl h4
              · exact Or.inr (yearVal_le_of_not_lt h4 hd4d
                  (pyStrLtL_asymm (hstrict e h)))
            · rw [List.mem_singleton.mp h]
              exact Or.inr le_rfl
        · have hltf : pyStrLt (runOfficers y ds).annee_naissance_max d.annee = false :=
            Bool.eq_false_iff.mpr hlt
          have hcond : (!((extractInfo y d).annee == "") &&
              ((runOfficers y ds).annee_naissance_max == "" ||
                pyStrLt (runOfficers y ds).annee_naissance_max (extractInfo y d).annee)) = false := by
            rw [show (extractInfo y d).annee = d.annee from rfl, hmaxbeq, hltf]
            simp
          obtain ⟨hm2, hn2, hp2, hq2⟩ := stepOfficer_neg y _ d hcond hnomD
          have hdmlef : pyStrLt dm.annee d.annee = false := hmax ▸ hltf
          have hd4d : isDigit4 d.annee = true := by
            rcases hd4 d hdmem with h | h
            · exact absurd h hde
            · exact h
          have hd4dm : isDigit4 dm.annee = true := by
            rcases hd4 dm (List.mem_append_left _ hdmmem) with h | h
            · exact absurd h hdm
            · exact h
          refine ⟨l₁, dm, l₂ ++ [d], by rw [hsplit]; simp, hdm, hl₁, ?_, ?_,
            hrun ▸ (hm2.trans hmax), hrun ▸ (hn2.trans hnomf),
            hrun ▸ (hp2.trans hprenf), hrun ▸ (hq2.trans hqualf)⟩
          · intro e he
            rcases List.mem_append.mp he with h | h
            · exact hle e h
            · rw [List.mem_singleton.mp h]
              exact Or.inr hdmlef
          · intro e he
            rcases List.mem_append.mp he with h | h
            · exact hval e h
            · rw [List.mem_singleton.mp h]
              exact Or.inr (yearVal_le_of_not_lt hd4d hd4dm hdmlef)
    · have hally : ∀ e ∈ ds, e.annee = "" := by
        intro e he
        by_contra hne
        exact hprev ⟨e, he, hne⟩
      have hde : d.annee ≠ "" := by
        obtain ⟨e, he, hne⟩ := hx
        rcases List.mem_append.mp he with h | h
        · exact absurd (hally e h) hne
        · exact (List.mem_singleton.mp h) ▸ hne
      have hd4d : isDigit4 d.annee = true := by
        rcases hd4 d hdmem with h | h
        · exact absurd h hde
        · exact h
      have hmax0 : (runOfficers y ds).annee_naissance_max = "0" :=
        foldl_max_no_year y ds hally initOffState
      have hcond : (!((extractInfo y d).annee == "") &&
          ((runOfficers y ds).annee_naissance_max == "" ||
            pyStrLt (runOfficers y ds).annee_naissance_max (extractInfo y d).annee)) = true := by
        rw [show (extractInfo y d).annee = d.annee from rfl, hmax0,
          pyStrLt_zero_of_digit4 hd4d]
        simp [hde]
      obtain ⟨hm2, hn2, hp2, hq2⟩ := stepOfficer_pos y _ d hcond
      refine ⟨ds, d, [], rfl, hde, ?_, ?_, ?_,
        hrun ▸ hm2, hrun ▸ hn2, hrun ▸ hp2, hrun ▸ hq2⟩
      · intro e he
        rw [hally e he]
        exact pyStrLt_empty hde
      · intro e he
        rcases List.mem_append.mp he with h | h
        · exact Or.inl (hally e h)
        · rw [List.mem_singleton.mp h]
          exact Or.inr (pyStrLtL_irrefl _)
      · intro e he
        rcases List.mem_append.mp he with h | h
        · exact Or.inl (hally e h)
        · rw [List.mem_singleton.mp h]
          exact Or.inr le_rfl

/-- C3 counterexample: with birth-year strings "999" and "1985" the code's
Python string comparison keeps the "999" officer as primary even though
1985 is the numerically highest birth year, refuting the claim as stated
for arbitrary well-typed officer lists. -/
theorem officer_primary_not_numeric :
    (runOfficers 2025 [⟨"A", "X", "", "999", ""⟩,
      ⟨"B", "Y", "", "1985", ""⟩]).nom_dirigeant = "A" ∧
    (runOfficers 2025 [⟨"A", "X", "", "999", ""⟩,
      ⟨"B", "Y", "", "1985", ""⟩]).annee_naissance_max = "999" ∧
    yearVal "999" < yearVal "1985" :=
  ⟨by decide, by decide, by decide⟩

/-- Witness for C3 (amended) at the specification's example: three officers
with four-digit years 1960, 1985, 1972; the general theorem applies, and
concretely the primary is the 1985 officer while the alternates are exactly
the other two, in their original relative order. -/
theorem officer_primary_highest_year_witness :
    (∃ l₁ d l₂, ([⟨"A", "P", "", "1960", ""⟩, ⟨"B", "Q", "", "1985", ""⟩,
        ⟨"C", "R", "", "1972", ""⟩] : List OfficerRaw) = l₁ ++ d :: l₂ ∧ d.annee ≠ "" ∧
      (∀ e ∈ l₁, pyStrLt e.annee d.annee = true) ∧
      (∀ e ∈ ([⟨"A", "P", "", "1960", ""⟩, ⟨"B", "Q", "", "1985", ""⟩,
        ⟨"C", "R", "", "1972", ""⟩] : List OfficerRaw),
        e.annee = "" ∨ pyStrLt d.annee e.annee = false) ∧
      (∀ e ∈ ([⟨"A", "P", "", "1960", ""⟩, ⟨"B", "Q", "", "1985", ""⟩,
        ⟨"C", "R", "", "1972", ""⟩] : List OfficerRaw),
        e.annee = "" ∨ yearVal e.annee ≤ yearVal d.annee) ∧
      (runOfficers 2025 [⟨"A", "P", "", "1960", ""⟩, ⟨"B", "Q", "", "1985", ""⟩,
        ⟨"C", "R", "", "1972", ""⟩]).annee_naissance_max = d.annee ∧
      (runOfficers 2025 [⟨"A", "P", "", "1960", ""⟩, ⟨"B", "Q", "", "1985", ""⟩,
        ⟨"C", "R", "", "1972", ""⟩]).nom_dirigeant = (extractInfo 2025 d).nom ∧
      (runOfficers 2025 [⟨"A", "P", "", "1960", ""⟩, ⟨"B", "Q", "", "1985", ""⟩,
        ⟨"C", "R", "", "1972", ""⟩]).prenom_dirigeant = (extractInfo 2025 d).premier_prenom ∧
      (runOfficers 2025 [⟨"A", "P", "", "1960", ""⟩, ⟨"B", "Q", "", "1985", ""⟩,
        ⟨"C", "R", "", "1972", ""⟩]).qualite_dirigeant = (extractInfo 2025 d).qualite) ∧
    (runOfficers 2025 [⟨"A", "P", "", "1960", ""⟩, ⟨"B", "Q", "", "1985", ""⟩,
      ⟨"C", "R", "", "1972", ""⟩]).nom_dirigeant = "B" ∧
    (alternatesOf (runOfficers 2025 [⟨"A", "P", "", "1960", ""⟩, ⟨"B", "Q", "", "1985", ""⟩,
      ⟨"C", "R", "", "1972", ""⟩])).map AltOfficer.nom = ["A", "C"] :=
  ⟨officer_primary_highest_year 2025 _ (by decide) (by decide) (by decide),
    by decide, by decide⟩

/-! ### C9: idempotence of the address normalizer -/

/-- Runs produced by `groupRunsBy` are nonempty. -/
theorem groupRunsBy_ne_nil (p : Char → Bool) (s : List Char) :
    ∀ g ∈ groupRunsBy p s, g ≠ [] := by
  induction s with
  | nil => intro g hg; simp [groupRunsBy] at hg
  | cons c cs ih =>
    intro g hg
    simp only [groupRunsBy] at hg
    split at hg
    · simp only [List.mem_singleton] at hg
      rw [hg]
      simp
    · rename_i gs heq
      exact absurd rfl (ih [] (by rw [heq]; exact List.mem_cons_self _ _))
    · rename_i d g0 gs heq
      split at hg
      · rcases List.mem_cons.mp hg with h1 | h1
        · rw [h1]; simp
        · exact ih g (by rw [heq]; exact List.mem_cons_of_mem _ h1)
      · rcases List.mem_cons.mp hg with h1 | h1
        · rw [h1]; simp
        · exact ih g (by rw [heq]; exact h1)

/-- The runs concatenate back to the input. -/
theorem groupRunsBy_flatten (p : Char → Bool) (s : List Char) :
    (groupRunsBy p s).flatten = s := by
  induction s with
  | nil => rfl
  | cons c cs ih =>
    simp only [groupRunsBy]
    split
    · rename_i heq
      rw [heq] at ih
      simp only [List.flatten_nil] at ih
      simp [← ih]
    · rename_i gs heq
      exact absurd rfl (groupRunsBy_ne_nil p cs [] (by rw [heq]; exact List.mem_cons_self _ _))
    · rename_i d g0 gs heq
      rw [heq] at ih
      simp only [List.flatten_cons] at ih
      split
      · simp only [List.flatten_cons, List.cons_append]
        exact congrArg (List.cons c) ih
      · simp only [List.flatten_cons, List.singleton_append, List.cons_append]
        simpa using congrArg (List.cons c) ih

/-- The run decomposition is well formed. -/
theorem groupRunsBy_good (p : Char → Bool) (s : List Char) :
    GoodRuns p none (groupRunsBy p s) := by
  induction s with
  | nil => exact .nil _
  | cons c cs ih =>
    simp only [groupRunsBy]
    split
    · exact .cons none (p c) [c] [] (by simp)
        (by intro x hx; simp only [List.mem_singleton] at hx; rw [hx]) (by simp) (.nil _)
    · rename_i gs heq
      exact absurd rfl (groupRunsBy_ne_nil p cs [] (by rw [heq]; exact List.mem_cons_self _ _))
    · rename_i d g0 gs heq
      rw [heq] at ih
      cases ih with
      | cons _ b _ _ hne hom hob hgs =>
        by_cases hpc : p c = p d
        · rw [if_pos hpc]
          refine .cons none b (c :: d :: g0) gs (by simp) ?_ (by simp) hgs
          intro x hx
          rcases List.mem_cons.mp hx with h1 | h1
          · rw [h1, hpc]
            exact hom d (List.mem_cons_self d g0)
          · exact hom x h1
        · rw [if_neg hpc]
          refine .cons none (p c) [c] ((d :: g0) :: gs) (by simp)
            (by intro x hx; simp only [List.mem_singleton] at hx; rw [hx]) (by simp) ?_
          refine .cons (some (p c)) b (d :: g0) gs hne hom ?_ hgs
          intro hcon
          have h1 : p c = b := by injection hcon
          exact hpc (h1.trans (hom d (List.mem_cons_self d g0)).symm)

/-- Members of a well-formed decomposition are nonempty and homogeneous. -/
theorem GoodRuns_mem {p : Char → Bool} {ob : Option Bool} {gs : List (List Char)}
    (h : GoodRuns p ob gs) :
    ∀ g ∈ gs, g ≠ [] ∧ ∃ b, ∀ c ∈ g, p c = b := by
  induction h with
  | nil => intro g hg; simp at hg
  | cons ob b g gs hne hom hob hgs ih =>
    intro g' hg'
    rcases List.mem_cons.mp hg' with h1 | h1
    · rw [h1]
      exact ⟨hne, b, hom⟩
    · exact ih g' h1

/-- Prepending a homogeneous nonempty run whose class differs from the head
run of the remainder yields exactly one more run. -/
theorem groupRunsBy_append_run (p : Char → Bool) (g : List Char) (b : Bool) (rest : List Char)
    (hg : g ≠ []) (hom : ∀ c ∈ g, p c = b)
    (hrest : ∀ d gg gs2, groupRunsBy p rest = (d :: gg) :: gs2 → p d ≠ b) :
    groupRunsBy p (g ++ rest) = g :: groupRunsBy p rest := by
  induction g with
  | nil => exact absurd rfl hg
  | cons c g' ih =>
    cases g' with
    | nil =>
      simp only [List.singleton_append]
      simp only [groupRunsBy]
      split
      · rename_i heq
        rw [heq]
      · rename_i gs heq
        exact absurd rfl (groupRunsBy_ne_nil p rest [] (by rw [heq]; exact List.mem_cons_self _ _))
      · rename_i d gg gs2 heq
        rw [if_neg (fun hpc : p c = p d =>
          (hrest d gg gs2 heq) (hpc ▸ hom c (List.mem_cons_self c [])))]
        rw [heq]
    | cons c2 g'' =>
      have ih' : groupRunsBy p (c2 :: (g'' ++ rest)) = (c2 :: g'') :: groupRunsBy p rest := by
        have h2 := ih (by simp) (fun x hx => hom x (List.mem_cons_of_mem c hx))
        simpa [List.cons_append] using h2
      show (match groupRunsBy p (c2 :: (g'' ++ rest)) with
          | [] => [[c]]
          | [] :: gs => [c] :: gs
          | (d :: g) :: gs => if p c = p d then (c :: d :: g) :: gs else [c] :: (d :: g) :: gs) =
        (c :: c2 :: g'') :: groupRunsBy p rest
      rw [ih']
      dsimp only
      rw [if_pos ((hom c (by simp)).trans (hom c2 (by simp)).symm)]

/-- A well-formed decomposition is recovered by `groupRunsBy` from its
concatenation. -/
theorem GoodRuns_flatten {p : Char → Bool} {ob : Option Bool} {gs : List (List Char)}
    (h : GoodRuns p ob gs) :
    groupRunsBy p gs.flatten = gs := by
  induction h with
  | nil => rfl
  | cons ob b g gs hne hom hob hgs ih =>
    simp only [List.flatten_cons]
    rw [groupRunsBy_append_run p g b gs.flatten hne hom ?_, ih]
    intro d gg gs2 heq
    rw [ih] at heq
    rw [heq] at hgs
    cases hgs with
    | cons _ b' _ _ hne' hom' hob' _ =>
      intro hdb
      have hb' : p d = b' := hom' d (List.mem_cons_self _ _)
      exact hob' (by rw [hb'.symm.trans hdb])

/-- The case mapping is idempotent: an upper-case image is never itself a
lower-case key of the case table. -/
theorem pyUpperChar_idem (c : Char) : pyUpperChar (pyUpperChar c) = pyUpperChar c := by
  cases hf : casePairs.find? (fun pr => pr.1 == c) with
  | none =>
    have h1 : pyUpperChar c = c := by
      unfold pyUpperChar
      rw [hf]
    rw [h1]
    exact h1
  | some pr =>
    have h1 : pyUpperChar c = pr.2 := by
      unfold pyUpperChar
      rw [hf]
    have hmem : pr ∈ casePairs := List.mem_of_find?_eq_some hf
    have hnone : ∀ q ∈ casePairs, casePairs.find? (fun x => x.1 == q.2) = none := by decide
    rw [h1]
    conv_lhs => unfold pyUpperChar
    rw [hnone pr hmem]

/-- Word characters are not whitespace characters. -/
theorem word_not_space {c : Char} (h : isWordCh c = true) : isSpaceCh c = false := by
  by_contra hs
  have hs' : isSpaceCh c = true := by
    cases hcs : isSpaceCh c
    · exact absurd hcs hs
    · rfl
  rw [isSpaceCh] at hs'
  simp only [Bool.or_eq_true, beq_iff_eq] at hs'
  rcases hs' with ((((h1 | h1) | h1) | h1) | h1) | h1 <;>
    (subst h1; exact absurd h (by decide))

/-- Mapping runs by a class-preserving, nonemptiness-preserving function
keeps a decomposition well formed. -/
theorem GoodRuns_map {p : Char → Bool} (f : List Char → List Char)
    {ob : Option Bool} {gs : List (List Char)} (h : GoodRuns p ob gs)
    (hf : ∀ g b, g ∈ gs → (∀ c ∈ g, p c = b) → f g ≠ [] ∧ ∀ c ∈ f g, p c = b) :
    GoodRuns p ob (gs.map f) := by
  induction h with
  | nil => exact .nil _
  | cons ob b g gs hne hom hob hgs ih =>
    have hfg := hf g b (List.mem_cons_self _ _) hom
    exact .cons ob b (f g) (gs.map f) hfg.1 hfg.2 hob
      (ih (fun g' b' hg' hom' => hf g' b' (List.mem_cons_of_mem _ hg') hom'))

/-- The run decomposition of a whole-word substitution: each maximal word
run equal to the pattern is replaced by the (nonempty, all-word)
replacement, all other runs are untouched. -/
theorem subWordAll_groups (w r x : List Char) (hr : r ≠ [])
    (hwall : ∀ c ∈ w, isWordCh c = true) (hrall : ∀ c ∈ r, isWordCh c = true) :
    groupRunsBy isWordCh (subWordAll w r x) =
      (groupRunsBy isWordCh x).map (fun g => if g = w then r else g) := by
  have hgood := groupRunsBy_good isWordCh x
  have hgood2 := GoodRuns_map (p := isWordCh) (fun g => if g = w then r else g) hgood ?_
  · exact GoodRuns_flatten hgood2
  · intro g b hg hom
    dsimp only
    by_cases hgw : g = w
    · rw [if_pos hgw]
      have hgne : g ≠ [] := groupRunsBy_ne_nil isWordCh x g hg
      have hb : b = true := by
        obtain ⟨c0, hc0⟩ := List.exists_mem_of_ne_nil g hgne
        rw [← hom c0 hc0]
        exact hwall c0 (hgw ▸ hc0)
      exact ⟨hr, fun c hc => (hrall c hc).trans hb.symm⟩
    · rw [if_neg hgw]
      exact ⟨groupRunsBy_ne_nil isWordCh x g hg, hom⟩

/-- Characters of a whole-word substitution come from the input or the
replacement. -/
theorem mem_subWordAll {w r x : List Char} {c : Char} (h : c ∈ subWordAll w r x) :
    c ∈ x ∨ c ∈ r := by
  unfold subWordAll at h
  rw [List.mem_flatten] at h
  obtain ⟨g', hg', hcg'⟩ := h
  rw [List.mem_map] at hg'
  obtain ⟨g, hg, hgg'⟩ := hg'
  by_cases hgw : g = w
  · rw [← hgg', if_pos hgw] at hcg'
    exact Or.inr hcg'
  · rw [← hgg', if_neg hgw] at hcg'
    refine Or.inl ?_
    rw [← groupRunsBy_flatten isWordCh x]
    exact List.mem_flatten.mpr ⟨g, hg, hcg'⟩

/-- Filtering commutes with mapping when the map translates the filter
predicate. -/
theorem filter_map_comm (f : List Char → List Char) (q1 q2 : List Char → Bool) :
    ∀ gs : List (List Char), (∀ g ∈ gs, q2 (f g) = q1 g) →
      (gs.map f).filter q2 = (gs.filter q1).map f := by
  intro gs
  induction gs with
  | nil => intro _; rfl
  | cons g gs ih =>
    intro h
    have hg := h g (List.mem_cons_self _ _)
    have ih' := ih (fun g' hg' => h g' (List.mem_cons_of_mem _ hg'))
    by_cases hq : q1 g = true
    · simp only [List.map_cons, List.filter_cons, hg, hq, if_true, List.map_cons, ih']
    · have hq' : q1 g = false := by
        cases hqq : q1 g
        · rfl
        · exact absurd hqq hq
      simp only [List.map_cons, List.filter_cons, hg, hq', Bool.false_eq_true, if_false, ih']

/-- Word runs under a whole-word substitution (word pattern, nonempty
all-word replacement): runs equal to the pattern become the replacement. -/
theorem wordRuns_subWordAll (w r x : List Char) (hw : w ≠ []) (hr : r ≠ [])
    (hwall : ∀ c ∈ w, isWordCh c = true) (hrall : ∀ c ∈ r, isWordCh c = true) :
    wordRuns (subWordAll w r x) = (wordRuns x).map (fun g => if g = w then r else g) := by
  unfold wordRuns
  rw [subWordAll_groups w r x hr hwall hrall]
  refine filter_map_comm _ _ _ _ ?_
  intro g hg
  by_cases hgw : g = w
  · rw [if_pos hgw, hgw]
    cases hrc : r with
    | nil => exact absurd hrc hr
    | cons c0 r' =>
      cases hwc : w with
      | nil => exact absurd hwc hw
      | cons d0 w' =>
        show isWordCh c0 = isWordCh d0
        rw [hrall c0 (by rw [hrc]; exact List.mem_cons_self _ _),
          hwall d0 (by rw [hwc]; exact List.mem_cons_self _ _)]
  · rw [if_neg hgw]

/-- Word runs under the iterated whole-word substitutions: each run is
transformed token-wise by the corresponding replacement chain. -/
theorem wordRuns_foldl_sub (ps : List (List Char × List Char)) :
    ∀ x, (∀ pr ∈ ps, pr.1 ≠ [] ∧ pr.2 ≠ [] ∧ (∀ c ∈ pr.1, isWordCh c = true) ∧
        (∀ c ∈ pr.2, isWordCh c = true)) →
      wordRuns (ps.foldl (fun a pr => subWordAll pr.1 pr.2 a) x) =
        (wordRuns x).map (fun g => ps.foldl (fun t pr => if t = pr.1 then pr.2 else t) g) := by
  induction ps with
  | nil =>
    intro x _
    simp
  | cons pr ps ih =>
    intro x hps
    obtain ⟨hw, hr, hwall, hrall⟩ := hps pr (List.mem_cons_self _ _)
    simp only [List.foldl_cons]
    rw [ih _ (fun q hq => hps q (List.mem_cons_of_mem _ hq)),
      wordRuns_subWordAll pr.1 pr.2 x hw hr hwall hrall, List.map_map]
    rfl

/-- The result of the token replacement chain is a replacement string or
the unchanged token known to differ from every pattern. -/
theorem foldl_chain_result (ps : List (List Char × List Char)) :
    ∀ g, (ps.foldl (fun t pr => if t = pr.1 then pr.2 else t) g ∈ ps.map Prod.snd) ∨
      (ps.foldl (fun t pr => if t = pr.1 then pr.2 else t) g = g ∧
        ∀ pr ∈ ps, g ≠ pr.1) := by
  induction ps with
  | nil =>
    intro g
    exact Or.inr ⟨rfl, by simp⟩
  | cons pr ps ih =>
    intro g
    simp only [List.foldl_cons, List.map_cons]
    by_cases hg : g = pr.1
    · rw [if_pos hg]
      rcases ih pr.2 with h | h
      · exact Or.inl (List.mem_cons_of_mem _ h)
      · exact Or.inl (by rw [h.1]; exact List.mem_cons_self _ _)
    · rw [if_neg hg]
      rcases ih g with h | h
      · exact Or.inl (List.mem_cons_of_mem _ h)
      · refine Or.inr ⟨h.1, fun q hq => ?_⟩
        rcases List.mem_cons.mp hq with h1 | h1
        · rw [h1]
          exact hg
        · exact h.2 q h1

/-- The token replacement chain never produces one of the six street-word
patterns. -/
theorem chainTok_not_source (g : List Char) : ∀ pr ∈ abbrevPairs, chainTok g ≠ pr.1 := by
  have hdisj : ∀ v ∈ abbrevPairs.map Prod.snd, ∀ pr ∈ abbrevPairs, v ≠ pr.1 := by decide
  intro pr hpr
  rcases foldl_chain_result abbrevPairs g with h | h
  · exact hdisj _ h pr hpr
  · rw [chainTok, h.1]
    exact h.2 pr hpr

/-- Characters after the abbreviation pass come from the input or from one
of the replacement strings. -/
theorem applyAbbrevs_chars {x : List Char} {c : Char} (h : c ∈ applyAbbrevs x) :
    c ∈ x ∨ ∃ pr ∈ abbrevPairs, c ∈ pr.2 := by
  suffices hgen : ∀ (ps : List (List Char × List Char)) (x : List Char) (c : Char),
      c ∈ ps.foldl (fun a pr => subWordAll pr.1 pr.2 a) x →
      c ∈ x ∨ ∃ pr ∈ ps, c ∈ pr.2 from hgen abbrevPairs x c h
  intro ps
  induction ps with
  | nil =>
    intro x c h
    exact Or.inl h
  | cons pr ps ih =>
    intro x c h
    rcases ih _ c h with h1 | ⟨q, hq, hcq⟩
    · rcases mem_subWordAll h1 with h2 | h2
      · exact Or.inl h2
      · exact Or.inr ⟨pr, List.mem_cons_self _ _, h2⟩
    · exact Or.inr ⟨q, List.mem_cons_of_mem _ hq, hcq⟩

/-- The special-character pass distributes over run concatenation. -/
theorem stripSpecialsL_flatten (gs : List (List Char)) :
    stripSpecialsL gs.flatten = (gs.map stripSpecialsL).flatten := by
  induction gs with
  | nil => rfl
  | cons g gs ih =>
    simp only [List.flatten_cons, List.map_cons, stripSpecialsL, List.map_append]
    rw [← ih]
    rfl

/-- The special-character pass turns a word-run decomposition into a
whitespace-run decomposition with flipped classes. -/
theorem GoodRuns_strip {ob : Option Bool} {gs : List (List Char)}
    (h : GoodRuns isWordCh ob gs) :
    GoodRuns isSpaceCh (ob.map (fun b => !b)) (gs.map stripSpecialsL) := by
  induction h with
  | nil => exact .nil _
  | cons ob b g gs hne hom hob hgs ih =>
    refine .cons _ (!b) (stripSpecialsL g) _ ?_ ?_ ?_ ih
    · cases g with
      | nil => exact absurd rfl hne
      | cons c0 g' => simp [stripSpecialsL]
    · intro c hc
      rw [stripSpecialsL, List.mem_map] at hc
      obtain ⟨c0, hc0, hcc⟩ := hc
      have hc0b := hom c0 hc0
      cases b with
      | true =>
        have hw : isWordCh c0 = true := hc0b
        rw [← hcc, if_pos (by rw [hw]; rfl)]
        rw [word_not_space hw]
        rfl
      | false =>
        have hw : isWordCh c0 = false := hc0b
        by_cases hsp : isSpaceCh c0 = true
        · rw [← hcc, if_pos (by rw [hw, hsp]; rfl)]
          rw [hsp]
          rfl
        · have hsp' : isSpaceCh c0 = false := by
            cases hq : isSpaceCh c0
            · rfl
            · exact absurd hq hsp
          rw [← hcc, if_neg (by rw [hw, hsp']; decide)]
          decide
    · cases ob with
      | none => simp
      | some b0 =>
        intro hcon
        apply hob
        have h0 : Option.map (fun x => !x) (some b0) = some (!b0) := rfl
        rw [h0] at hcon
        have h1 : (!b0) = (!b) := by injection hcon
        have h2 : b0 = b := by cases b0 <;> cases b <;> simp_all
        rw [h2]

/-- Splitting the special-stripped string on whitespace yields exactly the
word runs of the original string. -/
theorem splitTokens_stripSpecials (x : List Char) :
    splitTokensL (stripSpecialsL x) = (wordRuns x).map stripSpecialsL := by
  have hgood := groupRunsBy_good isWordCh x
  have hgs : groupRunsBy isSpaceCh (stripSpecialsL x) =
      (groupRunsBy isWordCh x).map stripSpecialsL := by
    have h2 := GoodRuns_strip hgood
    have h3 : stripSpecialsL x = ((groupRunsBy isWordCh x).map stripSpecialsL).flatten := by
      rw [← stripSpecialsL_flatten, groupRunsBy_flatten]
    rw [h3]
    exact GoodRuns_flatten h2
  unfold splitTokensL
  rw [hgs]
  refine filter_map_comm _ _ _ _ ?_
  intro g hg
  obtain ⟨hne, b, hom⟩ := GoodRuns_mem hgood g hg
  cases g with
  | nil => exact absurd rfl hne
  | cons c0 g' =>
    show headIs (fun c => !isSpaceCh c)
      ((if isWordCh c0 || isSpaceCh c0 then c0 else ' ') :: stripSpecialsL g') = isWordCh c0
    by_cases hw : isWordCh c0 = true
    · rw [if_pos (by rw [hw]; rfl)]
      show (!isSpaceCh c0) = isWordCh c0
      rw [word_not_space hw, hw]
      rfl
    · have hw' : isWordCh c0 = false := by
        cases hq : isWordCh c0
        · rfl
        · exact absurd hq hw
      by_cases hsp : isSpaceCh c0 = true
      · rw [if_pos (by rw [hw', hsp]; rfl)]
        show (!isSpaceCh c0) = isWordCh c0
        rw [hsp, hw']
        rfl
      · have hsp' : isSpaceCh c0 = false := by
          cases hq : isSpaceCh c0
          · rfl
          · exact absurd hq hsp
        rw [if_neg (by rw [hw', hsp']; decide)]
        show (!isSpaceCh ' ') = isWordCh c0
        rw [hw']
        decide

/-- The word runs of the special-stripped image coincide with the word runs
themselves (word characters are untouched by the pass). -/
theorem stripSpecialsL_wordRun (x : List Char) :
    ∀ g ∈ wordRuns x, stripSpecialsL g = g := by
  intro g hg
  have hmem := List.mem_of_mem_filter hg
  have hhead := List.of_mem_filter hg
  obtain ⟨hne, b, hom⟩ := GoodRuns_mem (groupRunsBy_good isWordCh x) g hmem
  have hb : b = true := by
    cases g with
    | nil => exact absurd rfl hne
    | cons c0 g' =>
      rw [← hom c0 (List.mem_cons_self _ _)]
      exact hhead
  unfold stripSpecialsL
  refine (List.map_congr_left ?_).trans (List.map_id _)
  intro c hc
  rw [if_pos (by rw [hom c hc, hb]; rfl)]
  rfl

/-- `joinTok` concatenates the token list interleaved with single-space
gaps. -/
theorem joinTok_eq_flatten (ts : List (List Char)) :
    joinTok ts = (interleaveSp ts).flatten := by
  induction ts with
  | nil => rfl
  | cons g rest ih =>
    cases rest with
    | nil => simp [joinTok, interleaveSp]
    | cons h gs =>
      show g ++ ' ' :: joinTok (h :: gs) = (g :: [' '] :: interleaveSp (h :: gs)).flatten
      rw [ih]
      simp

/-- Members of the interleaving are the tokens or the single-space gap. -/
theorem mem_interleaveSp {g : List Char} {ts : List (List Char)}
    (h : g ∈ interleaveSp ts) : g = [' '] ∨ g ∈ ts := by
  induction ts with
  | nil => simp [interleaveSp] at h
  | cons g0 rest ih =>
    cases rest with
    | nil =>
      simp only [interleaveSp, List.mem_singleton] at h
      exact Or.inr (by rw [h]; exact List.mem_cons_self _ _)
    | cons h0 gs =>
      rcases List.mem_cons.mp h with h1 | h1
      · exact Or.inr (by rw [h1]; exact List.mem_cons_self _ _)
      · rcases List.mem_cons.mp h1 with h2 | h2
        · exact Or.inl h2
        · rcases ih h2 with h3 | h3
          · exact Or.inl h3
          · exact Or.inr (List.mem_cons_of_mem _ h3)

/-- Characters of a joined token list are token characters or spaces. -/
theorem mem_joinTok {c : Char} {ts : List (List Char)} (h : c ∈ joinTok ts) :
    c = ' ' ∨ ∃ g ∈ ts, c ∈ g := by
  rw [joinTok_eq_flatten, List.mem_flatten] at h
  obtain ⟨g, hg, hcg⟩ := h
  rcases mem_interleaveSp hg with h1 | h1
  · rw [h1] at hcg
    simp only [List.mem_singleton] at hcg
    exact Or.inl hcg
  · exact Or.inr ⟨g, h1, hcg⟩

/-- The interleaving of nonempty all-word tokens is a well-formed word-run
decomposition. -/
theorem interleaveSp_good_word (ts : List (List Char)) :
    ∀ ob, ob ≠ some true → (∀ g ∈ ts, g ≠ []) →
    (∀ g ∈ ts, ∀ c ∈ g, isWordCh c = true) →
    GoodRuns isWordCh ob (interleaveSp ts) := by
  induction ts with
  | nil => intro ob _ _ _; exact .nil _
  | cons g rest ih =>
    intro ob hob hne hword
    cases rest with
    | nil =>
      exact .cons ob true g [] (hne g (List.mem_cons_self _ _))
        (hword g (List.mem_cons_self _ _)) hob (.nil _)
    | cons h gs =>
      refine .cons ob true g ([' '] :: interleaveSp (h :: gs))
        (hne g (List.mem_cons_self _ _)) (hword g (List.mem_cons_self _ _)) hob ?_
      refine .cons (some true) false [' '] _ (by simp) ?_ (by simp) ?_
      · intro c hc
        simp only [List.mem_singleton] at hc
        rw [hc]
        decide
      · exact ih (some false) (by simp)
          (fun g' hg' => hne g' (List.mem_cons_of_mem _ hg'))
          (fun g' hg' => hword g' (List.mem_cons_of_mem _ hg'))

/-- The interleaving of nonempty all-word tokens is a well-formed
whitespace-run decomposition. -/
theorem interleaveSp_good_space (ts : List (List Char)) :
    ∀ ob, ob ≠ some false → (∀ g ∈ ts, g ≠ []) →
    (∀ g ∈ ts, ∀ c ∈ g, isWordCh c = true) →
    GoodRuns isSpaceCh ob (interleaveSp ts) := by
  induction ts with
  | nil => intro ob _ _ _; exact .nil _
  | cons g rest ih =>
    intro ob hob hne hword
    cases rest with
    | nil =>
      exact .cons ob false g [] (hne g (List.mem_cons_self _ _))
        (fun c hc => word_not_space (hword g (List.mem_cons_self _ _) c hc)) hob (.nil _)
    | cons h gs =>
      refine .cons ob false g ([' '] :: interleaveSp (h :: gs))
        (hne g (List.mem_cons_self _ _))
        (fun c hc => word_not_space (hword g (List.mem_cons_self _ _) c hc)) hob ?_
      refine .cons (some false) true [' '] _ (by simp) ?_ (by simp) ?_
      · intro c hc
        simp only [List.mem_singleton] at hc
        rw [hc]
        decide
      · exact ih (some true) (by simp)
          (fun g' hg' => hne g' (List.mem_cons_of_mem _ hg'))
          (fun g' hg' => hword g' (List.mem_cons_of_mem _ hg'))

/-- Filtering the interleaving on non-space heads recovers the tokens. -/
theorem filter_interleaveSp (ts : List (List Char)) (hne : ∀ g ∈ ts, g ≠ [])
    (hword : ∀ g ∈ ts, ∀ c ∈ g, isWordCh c = true) :
    (interleaveSp ts).filter (headIs fun c => !isSpaceCh c) = ts := by
  induction ts with
  | nil => rfl
  | cons g rest ih =>
    have hkeep : headIs (fun c => !isSpaceCh c) g = true := by
      cases g with
      | nil => exact absurd rfl (hne [] (List.mem_cons_self _ _))
      | cons c0 g' =>
        show (!isSpaceCh c0) = true
        rw [word_not_space (hword _ (List.mem_cons_self _ _) c0 (List.mem_cons_self _ _))]
        rfl
    cases rest with
    | nil =>
      show List.filter _ [g] = [g]
      rw [List.filter_cons, hkeep]
      rfl
    | cons h gs =>
      show List.filter _ (g :: [' '] :: interleaveSp (h :: gs)) = g :: h :: gs
      rw [List.filter_cons, hkeep]
      simp only [if_true]
      rw [List.filter_cons]
      rw [show headIs (fun c => !isSpaceCh c) [' '] = false from by decide]
      simp only [Bool.false_eq_true, if_false]
      rw [ih (fun g' hg' => hne g' (List.mem_cons_of_mem _ hg'))
        (fun g' hg' => hword g' (List.mem_cons_of_mem _ hg'))]

/-- Iterated whole-word substitutions that each fix a string fix it
jointly. -/
theorem foldl_subWordAll_id (ps : List (List Char × List Char)) (t : List Char)
    (h : ∀ pr ∈ ps, subWordAll pr.1 pr.2 t = t) :
    ps.foldl (fun a pr => subWordAll pr.1 pr.2 a) t = t := by
  induction ps with
  | nil => rfl
  | cons pr ps ih =>
    simp only [List.foldl_cons, h pr (List.mem_cons_self _ _)]
    exact ih (fun q hq => h q (List.mem_cons_of_mem _ hq))

/-- Canonical outputs are fixed points of the normalization pipeline. -/
theorem cleanList_fixed (ts : List (List Char))
    (hne : ∀ g ∈ ts, g ≠ [])
    (hword : ∀ g ∈ ts, ∀ c ∈ g, isWordCh c = true)
    (hup : ∀ g ∈ ts, ∀ c ∈ g, pyUpperChar c = c)
    (hnotsrc : ∀ g ∈ ts, ∀ pr ∈ abbrevPairs, g ≠ pr.1) :
    cleanList (joinTok ts) = joinTok ts := by
  have hup1 : upperL (joinTok ts) = joinTok ts := by
    unfold upperL
    refine (List.map_congr_left ?_).trans (List.map_id _)
    intro c hc
    rcases mem_joinTok hc with h1 | ⟨g, hg, hcg⟩
    · rw [h1]
      decide
    · exact hup g hg c hcg
  have habb : applyAbbrevs (joinTok ts) = joinTok ts := by
    unfold applyAbbrevs
    refine foldl_subWordAll_id _ _ ?_
    intro pr hpr
    unfold subWordAll
    have hgr : groupRunsBy isWordCh (joinTok ts) = interleaveSp ts := by
      rw [joinTok_eq_flatten]
      exact GoodRuns_flatten (interleaveSp_good_word ts none (by simp) hne hword)
    rw [hgr]
    have hmapid : (interleaveSp ts).map (fun g => if g = pr.1 then pr.2 else g) =
        interleaveSp ts := by
      refine (List.map_congr_left ?_).trans (List.map_id _)
      intro g hg
      dsimp only
      rcases mem_interleaveSp hg with h1 | h1
      · have hsp : ∀ q ∈ abbrevPairs, ([' '] : List Char) ≠ q.1 := by decide
        rw [h1, if_neg (hsp pr hpr)]
        rfl
      · rw [if_neg (hnotsrc g h1 pr hpr)]
        rfl
    rw [hmapid, ← joinTok_eq_flatten]
  have hstrip : stripSpecialsL (joinTok ts) = joinTok ts := by
    unfold stripSpecialsL
    refine (List.map_congr_left ?_).trans (List.map_id _)
    intro c hc
    rcases mem_joinTok hc with h1 | ⟨g, hg, hcg⟩
    · rw [h1]
      decide
    · rw [if_pos (by rw [hword g hg c hcg]; rfl)]
      rfl
  have hcol : collapseL (joinTok ts) = joinTok ts := by
    unfold collapseL splitTokensL
    have hgr : groupRunsBy isSpaceCh (joinTok ts) = interleaveSp ts := by
      rw [joinTok_eq_flatten]
      exact GoodRuns_flatten (interleaveSp_good_space ts none (by simp) hne hword)
    rw [hgr, filter_interleaveSp ts hne hword]
  show collapseL (stripSpecialsL (applyAbbrevs (upperL (joinTok ts)))) = joinTok ts
  rw [hup1, habb, hstrip, hcol]

/-- A word run is part of the underlying string. -/
theorem mem_of_mem_wordRun {x g : List Char} {c : Char} (hg : g ∈ wordRuns x)
    (hc : c ∈ g) : c ∈ x := by
  rw [← groupRunsBy_flatten isWordCh x]
  exact List.mem_flatten.mpr ⟨g, List.mem_of_mem_filter hg, hc⟩

/-- Word runs are nonempty. -/
theorem wordRun_ne_nil {x g : List Char} (hg : g ∈ wordRuns x) : g ≠ [] :=
  groupRunsBy_ne_nil _ _ g (List.mem_of_mem_filter hg)

/-- Word runs consist of word characters. -/
theorem wordRun_all_word {x g : List Char} (hg : g ∈ wordRuns x) :
    ∀ c ∈ g, isWordCh c = true := by
  intro c hc
  have hmem := List.mem_of_mem_filter hg
  have hhead := List.of_mem_filter hg
  obtain ⟨hne, b, hom⟩ := GoodRuns_mem (groupRunsBy_good isWordCh _) g hmem
  cases g with
  | nil => exact absurd rfl hne
  | cons c0 g' =>
    have hb : b = true := by
      rw [← hom c0 (List.mem_cons_self _ _)]
      exact hhead
    rw [hom c hc, hb]

set_option maxHeartbeats 2000000 in
/-- The normalizer's output decomposed into its canonical token list. -/
theorem cleanList_canonical (s : List Char) :
    ∃ ts, cleanList s = joinTok ts ∧
      (∀ g ∈ ts, g ≠ []) ∧
      (∀ g ∈ ts, ∀ c ∈ g, isWordCh c = true) ∧
      (∀ g ∈ ts, ∀ c ∈ g, pyUpperChar c = c) ∧
      (∀ g ∈ ts, ∀ pr ∈ abbrevPairs, g ≠ pr.1) := by
  refine ⟨wordRuns (applyAbbrevs (upperL s)), ?_, ?_, ?_, ?_, ?_⟩
  · show collapseL (stripSpecialsL (applyAbbrevs (upperL s))) = _
    unfold collapseL
    rw [splitTokens_stripSpecials]
    have hmapid : (wordRuns (applyAbbrevs (upperL s))).map stripSpecialsL =
        wordRuns (applyAbbrevs (upperL s)) := by
      refine (List.map_congr_left ?_).trans (List.map_id _)
      intro g hg
      exact stripSpecialsL_wordRun _ g hg
    rw [hmapid]
  · intro g hg
    exact wordRun_ne_nil hg
  · intro g hg
    exact wordRun_all_word hg
  · intro g hg c hc
    have hcv : c ∈ applyAbbrevs (upperL s) := mem_of_mem_wordRun hg hc
    rcases applyAbbrevs_chars hcv with h1 | ⟨pr, hpr, hcpr⟩
    · obtain ⟨c0, _, hcc⟩ := List.mem_map.mp h1
      rw [← hcc]
      exact pyUpperChar_idem c0
    · have habq : ∀ q ∈ abbrevPairs, ∀ c ∈ q.2, pyUpperChar c = c := by decide
      exact habq pr hpr c hcpr
  · intro g hg
    have h2 : wordRuns (applyAbbrevs (upperL s)) =
        (wordRuns (upperL s)).map
          (fun g => abbrevPairs.foldl (fun t pr => if t = pr.1 then pr.2 else t) g) :=
      wordRuns_foldl_sub abbrevPairs (upperL s) (by decide)
    rw [h2] at hg
    obtain ⟨g0, _, hgg⟩ := List.mem_map.mp hg
    intro pr hpr
    rw [← hgg]
    exact chainTok_not_source g0 pr hpr

set_option maxHeartbeats 1000000 in
/-- C9: address normalization is idempotent - every output of
`clean_address` is a fixed point of `clean_address`. -/
theorem clean_address_idempotent (s : String) :
    clean_address (clean_address s) = clean_address s := by
  obtain ⟨ts, hts, hne, hword, hup, hsrc⟩ := cleanList_canonical s.data
  have h2 : cleanList (cleanList s.data) = cleanList s.data :=
    (congrArg cleanList hts).trans
      ((cleanList_fixed ts hne hword hup hsrc).trans hts.symm)
  have hdm : ∀ l : List Char, (String.mk l).data = l := fun _ => rfl
  have h5 : clean_address (clean_address s) =
      ⟨cleanList (clean_address s).data⟩ := rfl
  have h8 : clean_address s = (⟨cleanList s.data⟩ : String) := rfl
  have h6 : (clean_address s).data = cleanList s.data :=
    (congrArg String.data h8).trans (hdm (cleanList s.data))
  have h7 : cleanList (clean_address s).data = cleanList (cleanList s.data) :=
    congrArg cleanList h6
  exact h5.trans ((congrArg String.mk h7).trans
    ((congrArg String.mk h2).trans h8.symm))

end EnrichApi
